import Mathlib

/-!
Repository vtg/flash: action resolution, `capitalize` and `cleanPath`.

A shallow embedding of `src/controller.go` and `src/utils.go`.

Go strings are byte sequences; a `GoString` is the list of its bytes (each a
number below 256).  Runes are natural numbers.  The standard-library routines
the sources call (`utf8.DecodeRuneInString`, the `string(rune)` conversion,
`unicode.ToUpper`, `path.Clean`) are embedded next to the functions that use
them.  The non-ASCII part of `unicode.ToUpper` is a table lookup
(`unicode.CaseRanges`); that table is a parameter `tbl` of the development.
An `http.ResponseWriter` is the sequence of calls it has received, and a call
that may panic has an `Outcome`.  The routine of `encoding/json` for string
literals is a parameter `quote` of the encoder.
-/

namespace Flash

/-- A Go `string`: its bytes, in order. -/
abbrev GoString := List Nat

/-! ## `unicode/utf8` -/

/-- Constant `utf8.RuneError`, U+FFFD. -/
def RuneError : Nat := 0xFFFD

/-- Constant `utf8.MaxRune`, U+10FFFF. -/
def MaxRune : Nat := 0x10FFFF

/-- Function `utf8.ValidRune`: a code point that is not a surrogate half and not above `MaxRune`. -/
def ValidRune (r : Nat) : Bool :=
  (r < 0xD800) || (0xDFFF < r && r ≤ MaxRune)

/-- The conversion `string(r)` of a rune (`utf8.EncodeRune`): the UTF-8 encoding of `r`, and that of
U+FFFD for a surrogate half or a value above `MaxRune`.  Shifts and masks are written
arithmetically: `r>>6` is `r / 64`, `byte(r)&maskx` is `r % 64`, `t2|x` is `0xC0 + x`,
`tx|x` is `0x80 + x`, `t3|x` is `0xE0 + x`, `t4|x` is `0xF0 + x`. -/
def encodeRune (r : Nat) : GoString :=
  if r ≤ 0x7F then [r]
  else if r ≤ 0x7FF then [0xC0 + r / 64, 0x80 + r % 64]
  else if MaxRune < r ∨ (0xD800 ≤ r ∧ r ≤ 0xDFFF) then [0xEF, 0xBF, 0xBD]
  else if r ≤ 0xFFFF then [0xE0 + r / 4096, 0x80 + r / 64 % 64, 0x80 + r % 64]
  else [0xF0 + r / 262144, 0x80 + r / 4096 % 64, 0x80 + r / 64 % 64, 0x80 + r % 64]

/-- The bytes of a string literal of the Go source (source files are UTF-8). -/
def str (s : String) : GoString :=
  s.toList.flatMap (fun c => encodeRune c.toNat)

/-- The entry of `utf8.first` for a lead byte together with its `acceptRanges` row:
`some (size, lo, hi)` for a lead byte of a sequence of `size` bytes whose second byte must
lie in `lo..hi`, and `none` for an ASCII byte or a byte that starts no sequence. -/
def leadInfo (s0 : Nat) : Option (Nat × Nat × Nat) :=
  if 0xC2 ≤ s0 ∧ s0 ≤ 0xDF then some (2, 0x80, 0xBF)
  else if s0 = 0xE0 then some (3, 0xA0, 0xBF)
  else if 0xE1 ≤ s0 ∧ s0 ≤ 0xEC then some (3, 0x80, 0xBF)
  else if s0 = 0xED then some (3, 0x80, 0x9F)
  else if 0xEE ≤ s0 ∧ s0 ≤ 0xEF then some (3, 0x80, 0xBF)
  else if s0 = 0xF0 then some (4, 0x90, 0xBF)
  else if 0xF1 ≤ s0 ∧ s0 ≤ 0xF3 then some (4, 0x80, 0xBF)
  else if s0 = 0xF4 then some (4, 0x80, 0x8F)
  else none

/-- Function `utf8.DecodeRuneInString`: the first rune of `s` and its width in bytes;
`(RuneError, 0)` for the empty string and `(RuneError, 1)` for an ill-formed sequence.
Masks and shifts are written arithmetically: `s0&mask2` is `s0 % 32`, `s0&mask3` is
`s0 % 16`, `s0&mask4` is `s0 % 8`, `s&maskx` is `s % 64`, `x<<6` is `x * 64`. -/
def DecodeRuneInString (s : GoString) : Nat × Nat :=
  match s with
  | [] => (RuneError, 0)
  | s0 :: rest =>
    if s0 < 0x80 then (s0, 1)
    else
      match leadInfo s0 with
      | none => (RuneError, 1)
      | some (sz, lo, hi) =>
        if s.length < sz then (RuneError, 1)
        else
          match rest with
          | [] => (RuneError, 1)
          | s1 :: rest1 =>
            if s1 < lo ∨ hi < s1 then (RuneError, 1)
            else if sz ≤ 2 then (s0 % 32 * 64 + s1 % 64, 2)
            else
              match rest1 with
              | [] => (RuneError, 1)
              | s2 :: rest2 =>
                if s2 < 0x80 ∨ 0xBF < s2 then (RuneError, 1)
                else if sz ≤ 3 then (s0 % 16 * 4096 + s1 % 64 * 64 + s2 % 64, 3)
                else
                  match rest2 with
                  | [] => (RuneError, 1)
                  | s3 :: _ =>
                    if s3 < 0x80 ∨ 0xBF < s3 then (RuneError, 1)
                    else (s0 % 8 * 262144 + s1 % 64 * 4096 + s2 % 64 * 64 + s3 % 64, 4)

/-! ## `unicode` -/

/-- Function `unicode.ToUpper`: ASCII letters are mapped directly, every other rune goes through
the case table (`To(UpperCase, r)` over `unicode.CaseRanges`), here the parameter `tbl`. -/
def ToUpper (tbl : Nat → Nat) (r : Nat) : Nat :=
  if r ≤ 0x7F then
    if 0x61 ≤ r ∧ r ≤ 0x7A then r - 0x20 else r
  else tbl r

/-- The rows of `unicode.CaseRanges` for U+0080..U+00FF, upper-case column; runes outside
these rows are left alone. -/
def latin1Upper (r : Nat) : Nat :=
  if r = 0xB5 then r + 743
  else if 0xE0 ≤ r ∧ r ≤ 0xF6 then r - 32
  else if 0xF8 ≤ r ∧ r ≤ 0xFE then r - 32
  else if r = 0xFF then r + 121
  else r

/-! ## `path` -/

/-- The test `r+k == n || path[r+k] == '/'` of `path.Clean` on the unread input `path[r+k:]`. -/
def atEnd (t : List Nat) : Bool :=
  match t with
  | [] => true
  | c :: _ => c == 47

/-- The loop `for out.w > dotdot && out.index(out.w) != '/' { out.w-- }` of `path.Clean`, on the
buffer `buf[0:w]` held last byte first: `c` is `out.index(out.w)`, the byte given up last. -/
def unwind (dotdot : Nat) : List Nat → Nat → List Nat
  | [], _ => []
  | x :: xs, c => if (x :: xs).length > dotdot ∧ c ≠ 47 then unwind dotdot xs x else x :: xs

/-- The backtracking of a `..` element in `path.Clean`: `out.w--` followed by the loop `unwind`. -/
def backtrack (dotdot : Nat) (out : List Nat) : List Nat :=
  match out.reverse with
  | [] => []
  | c :: xs => (unwind dotdot xs c).reverse

/-- The main loop `for r < n { ... }` of `path.Clean`.  The state is the unread input
`path[r:]`, the bytes written so far `buf[0:w]` (the `lazybuf`) and the index `dotdot`.
Every iteration reads at least one byte, so `fuel` iterations of the loop suffice for an input
of `fuel` bytes. -/
def cleanLoop (rooted : Bool) : Nat → List Nat → List Nat → Nat → List Nat
  | 0, _, out, _ => out
  | _ + 1, [], out, _ => out
  | fuel + 1, c :: t, out, dotdot =>
    if c = 47 then
      -- empty path element
      cleanLoop rooted fuel t out dotdot
    else if c = 46 ∧ atEnd t then
      -- . element
      cleanLoop rooted fuel t out dotdot
    else if c = 46 ∧ t.head? = some 46 ∧ atEnd t.tail then
      -- .. element: remove to last /
      if out.length > dotdot then
        cleanLoop rooted fuel t.tail (backtrack dotdot out) dotdot
      else if ¬ rooted then
        let out1 := if out.length > 0 then out ++ [47] else out
        cleanLoop rooted fuel t.tail (out1 ++ [46, 46]) (out1 ++ [46, 46]).length
      else
        cleanLoop rooted fuel t.tail out dotdot
    else
      -- real path element: add slash if needed, copy element
      let out1 :=
        if (rooted ∧ out.length ≠ 1) ∨ (¬ rooted ∧ out.length ≠ 0) then out ++ [47] else out
      cleanLoop rooted fuel ((c :: t).dropWhile (fun b => b ≠ 47))
        (out1 ++ (c :: t).takeWhile (fun b => b ≠ 47)) dotdot

/-- Function `path.Clean` of the Go standard library. -/
def Clean (path : GoString) : GoString :=
  if path = [] then [46]
  else
    let rooted : Bool := path.head? = some 47
    let out :=
      if rooted then cleanLoop rooted path.length path.tail [47] 1
      else cleanLoop rooted path.length path [] 0
    if out.length = 0 then [46] else out

/-! ## `net/http` -/

/-- A call made on an `http.ResponseWriter`. -/
inductive SinkCall where
  /-- The call `w.Header().Set(key, value)`. -/
  | setHeader (key value : GoString)
  /-- The call `w.WriteHeader(code)`. -/
  | writeHeader (code : Int)
  /-- The call `w.Write(b)`. -/
  | write (b : GoString)
deriving DecidableEq, Repr

/-- An `http.ResponseWriter`, an interface, as the calls it has received, oldest first. -/
abbrev ResponseWriter := List SinkCall

/-- The outcome of a call that may panic: `.ok` with the sink after a normal return, `.error`
with the sink as the panic left it. -/
abbrev Outcome := Except ResponseWriter ResponseWriter

/-- The sink an outcome leaves behind, returned or panicked. -/
def sinkAfter : Outcome → ResponseWriter
  | .ok w => w
  | .error w => w

/-- Method `WriteHeader` of the sinks of `net/http` (`http.response` and
`httptest.ResponseRecorder`): both start with `checkWriteHeaderCode`, which panics for a code
outside 100..999; otherwise the sink has received the code. -/
def WriteHeader (w : ResponseWriter) (code : Int) : Outcome :=
  if code < 100 ∨ code > 999 then .error w
  else .ok (w ++ [SinkCall.writeHeader code])

/-- The bytes handed to `Write`, in order: the body the sink was given. -/
def bodyWritten : ResponseWriter → GoString
  | [] => []
  | SinkCall.write b :: rest => b ++ bodyWritten rest
  | _ :: rest => bodyWritten rest

/-- The codes handed to `WriteHeader`, in order. -/
def statusWritten : ResponseWriter → List Int
  | [] => []
  | SinkCall.writeHeader c :: rest => c :: statusWritten rest
  | _ :: rest => statusWritten rest

/-- The value last set for the header `key`, if any. -/
def headerSet (key : GoString) : ResponseWriter → Option GoString
  | [] => none
  | SinkCall.setHeader k v :: rest =>
    match headerSet key rest with
    | some v' => some v'
    | none => if k = key then some v else none
  | _ :: rest => headerSet key rest

/-! ## `encoding/json` -/

mutual
/-- The values of a `JSON` map (`map[string]interface{}`) that the error envelope is made of. -/
inductive JValue where
  /-- A `string`. -/
  | string (s : GoString)
  /-- A `[]string` that is not nil. -/
  | strings (l : List GoString)
  /-- A nested `JSON` map that is not nil. -/
  | object (fields : JFields)
/-- The entries of a `JSON` map. -/
inductive JFields where
  /-- The map without entries. -/
  | nil
  /-- One more entry. -/
  | cons (key : GoString) (value : JValue) (rest : JFields)
end

/-- Type `JSON` of the package: `map[string]interface{}`. -/
abbrev JSON := JFields

/-- Table `htmlSafeSet` of `encoding/json`: the ASCII bytes written as they are, that is all
from the space on but the double quote, the backslash and the characters &, < and >. -/
def htmlSafe (b : Nat) : Bool :=
  0x20 ≤ b && b < 0x80 && b != 0x22 && b != 0x26 && b != 0x3C && b != 0x3E && b != 0x5C

/-- The digit `hex[n]` of `encoding/json`, with `hex = "0123456789abcdef"`. -/
def hexDigit (n : Nat) : Nat :=
  if n < 10 then 48 + n else 87 + n

/-- The escape sequence `appendString` writes for an ASCII byte outside `htmlSafeSet`: a backslash
and the byte for the backslash and the double quote, the short forms for backspace, form feed,
line feed, carriage return and tab, and the form with `u00` and two hex digits otherwise. -/
def escapeByte (b : Nat) : GoString :=
  if b = 0x5C ∨ b = 0x22 then [0x5C, b]
  else if b = 8 then [0x5C, 98]
  else if b = 12 then [0x5C, 102]
  else if b = 10 then [0x5C, 110]
  else if b = 13 then [0x5C, 114]
  else if b = 9 then [0x5C, 116]
  else [0x5C, 117, 48, 48, hexDigit (b / 16), hexDigit (b % 16)]

/-- The loop of `appendString` of `encoding/json` (with `escapeHTML` set, as `json.NewEncoder`
sets it): safe ASCII is copied, other ASCII is escaped, an ill-formed byte is written as the
escape of U+FFFD, U+2028 and U+2029 are escaped, every other character is copied.  Every
round reads at least one byte, so `fuel` rounds suffice for `fuel` bytes. -/
def appendStringLoop : Nat → GoString → GoString
  | 0, _ => []
  | _ + 1, [] => []
  | fuel + 1, b :: rest =>
    if b < 0x80 then
      (if htmlSafe b then [b] else escapeByte b) ++ appendStringLoop fuel rest
    else
      let cs := DecodeRuneInString (b :: rest)
      if cs.1 = RuneError ∧ cs.2 = 1 then
        [0x5C, 117, 102, 102, 102, 100] ++ appendStringLoop fuel rest
      else if cs.1 = 0x2028 ∨ cs.1 = 0x2029 then
        [0x5C, 117, 50, 48, 50, hexDigit (cs.1 % 16)] ++
          appendStringLoop fuel ((b :: rest).drop cs.2)
      else
        (b :: rest).take cs.2 ++ appendStringLoop fuel ((b :: rest).drop cs.2)

/-- Function `appendString` of `encoding/json`: the JSON string literal for `src`, as the
encoder of Go 1.22 writes it.  Releases differ on bytes outside `htmlSafeSet` (the short forms
for backspace and form feed, the form of an ill-formed byte), so the encoder below takes the
routine for string literals as its parameter `quote`, and this one stands in for it where a
concrete routine is needed. -/
def appendString (src : GoString) : GoString :=
  [34] ++ appendStringLoop src.length src ++ [34]

mutual
/-- The JSON text `json.Marshal` gives for a value: a string literal, an array of string
literals, or an object with its keys in sorted order.  The routine for string literals is the
parameter `quote`. -/
def JValue.encode (quote : GoString → GoString) : JValue → GoString
  | .string s => quote s
  | .strings l => [91] ++ List.intercalate [44] (l.map quote) ++ [93]
  | .object fields =>
    [123] ++ List.intercalate [44]
      ((List.insertionSort (fun a b : GoString × GoString => a.1 ≤ b.1)
          (fields.encodeFields quote)).map
        (fun kv => quote kv.1 ++ [58] ++ kv.2)) ++ [125]
/-- The entries of a map, each key with the JSON text of its value. -/
def JFields.encodeFields (quote : GoString → GoString) : JFields → List (GoString × GoString)
  | .nil => []
  | .cons key value rest => (key, value.encode quote) :: rest.encodeFields quote
end

/-- The call `json.NewEncoder(w).Encode(s)`: one `Write` of the JSON text of `s` followed by a
newline.  The values modelled here always encode, so the error branch of the callers (a line
in the log) is never taken. -/
def Encode (quote : GoString → GoString) (w : ResponseWriter) (s : JSON) : ResponseWriter :=
  w ++ [SinkCall.write ((JValue.object s).encode quote ++ [10])]

/-! ## `src/utils.go` -/

/-- Function `capitalize` of `src/utils.go`. -/
def capitalize (tbl : Nat → Nat) (s : GoString) : GoString :=
  if s = [] then s
  else
    let rn := DecodeRuneInString s
    encodeRune (ToUpper tbl rn.1) ++ s.drop rn.2

/-- Function `cleanPath` of `src/utils.go`. -/
def cleanPath (p : GoString) : GoString :=
  if p = [] then [47]
  else
    let p := if p.head? ≠ some 47 then 47 :: p else p
    let np := Clean p
    if p.getLast? = some 47 ∧ np ≠ [47] then np ++ [47] else np

/-- Function `RenderJSON` of `src/utils.go`: the header is set, then `WriteHeader(code)` is
called, and only when that call returns is the value encoded to the sink. -/
def RenderJSON (quote : GoString → GoString) (w : ResponseWriter) (code : Int) (s : JSON) :
    Outcome :=
  let w1 := w ++ [SinkCall.setHeader (str "Content-Type") (str "application/json; charset=utf-8")]
  match WriteHeader w1 code with
  | .error e => .error e
  | .ok w2 => .ok (Encode quote w2 s)

/-- Function `RenderJSONError` of `src/utils.go`. -/
def RenderJSONError (quote : GoString → GoString) (w : ResponseWriter) (code : Int)
    (s : GoString) : Outcome :=
  RenderJSON quote w code
    (JFields.cons (str "errors")
      (JValue.object (JFields.cons (str "message") (JValue.strings [s]) JFields.nil))
      JFields.nil)

/-! ## Canonical paths -/

/-- A path element `Clean` keeps: not empty, free of '/', and neither "." nor "..". -/
def GoodSeg (s : List Nat) : Prop :=
  s ≠ [] ∧ 47 ∉ s ∧ s ≠ [46] ∧ s ≠ [46, 46]

/-- The elements `segs`, each behind a '/': "/a/b/c". -/
def joinSegs (segs : List (List Nat)) : List Nat :=
  segs.flatMap (fun s => 47 :: s)

/-- The rooted path made of the elements `segs`: "/" when there are none, "/a/b/c" otherwise. -/
def render (segs : List (List Nat)) : List Nat :=
  if segs = [] then [47] else joinSegs segs

/-! ## `src/controller.go` -/

/-- A route-parameter map `map[string]string`, as an association list. -/
abbrev Params := List (GoString × GoString)

/-- Indexing `m[k]` of a Go map: the value stored under `k`, the empty string when `k` is absent. -/
def Params.get (m : Params) (k : GoString) : GoString :=
  match m.lookup k with
  | some v => v
  | none => []

/-- The part of `http.Request` the controller reads. -/
structure Request where
  Method : GoString
deriving DecidableEq, Repr

/-- The embedded request context `Ctx`: the response sink, the request and the route
parameters. -/
structure Ctx where
  W : ResponseWriter := []
  Req : Request
  params : Params
deriving DecidableEq, Repr

/-- Struct `Controller` of `src/controller.go`. -/
structure Controller where
  Root : GoString
  Action : GoString
  ctx : Ctx
deriving DecidableEq, Repr

/-- The loop `for _, v := range extras { if a == v { return a } }`: `some a` when the loop
returns, `none` when it runs to its end. -/
def rangeExtras (a : GoString) : List GoString → Option GoString
  | [] => none
  | v :: vs => if a = v then some a else rangeExtras a vs

/-- Method `Controller.makeAction` of `src/controller.go`. -/
def Controller.makeAction (tbl : Nat → Nat) (r : Controller) (extras : List GoString) : GoString :=
  let method := r.ctx.Req.Method
  let rule1 : Option GoString :=
    if r.ctx.params.get (str "id") = [] then
      if method = str "GET" then some (str "Index")
      else if method = str "POST" then some (str "Create")
      else none
    else none
  match rule1 with
  | some a => a
  | none =>
    if r.ctx.params.get (str "action") ≠ [] then
      method ++ capitalize tbl (r.ctx.params.get (str "action"))
    else
      let rule3 : Option GoString :=
        if extras.length > 0 then
          rangeExtras (method ++ capitalize tbl (r.ctx.params.get (str "id"))) extras
        else none
      match rule3 with
      | some a => a
      | none =>
        if method = str "GET" then str "Show"
        else if method = str "POST" ∨ method = str "PUT" then str "Update"
        else if method = str "DELETE" then str "Destroy"
        else str "WrongAction"

/-- Modelled from the spec: method `initCtx` of `Ctx`, whose source is not among the files at
hand; it stores the sink, the request and the route parameters and computes nothing else. -/
def Ctx.initCtx (_c : Ctx) (w : ResponseWriter) (req : Request) (params : Params) : Ctx :=
  { W := w, Req := req, params := params }

/-- A call of `makeAction` as a step on its receiver `r *Controller`: the action name returned
and the controller after the call.  The body reads `r.params` and `r.Req.Method` and assigns
through `r` nowhere. -/
def Controller.makeActionCall (tbl : Nat → Nat) (r : Controller) (extras : List GoString) :
    GoString × Controller :=
  (r.makeAction tbl extras, r)

/-- Method `Controller.init` of `src/controller.go`, as a step on its receiver. -/
def Controller.init (tbl : Nat → Nat) (r : Controller) (w : ResponseWriter) (req : Request)
    (root : GoString) (params : Params) (extras : List GoString) : Controller :=
  let r1 := { r with ctx := r.ctx.initCtx w req params }
  let r2 := { r1 with Root := root }
  let call := r2.makeActionCall tbl extras
  { call.2 with Action := call.1 }

/-- Method `Controller.CurrentAction` of `src/controller.go`, as a step on its receiver: the
value returned and the controller after the call. -/
def Controller.CurrentAction (r : Controller) : GoString × Controller :=
  (r.Action, r)

/-! ## Action resolution -/

theorem rangeExtras_eq_some (a : GoString) (extras : List GoString) (h : a ∈ extras) :
    rangeExtras a extras = some a := by
  induction extras with
  | nil => cases h
  | cons v vs ih =>
    by_cases hv : a = v
    · simp [rangeExtras, hv]
    · have : a ∈ vs := by
        rcases List.mem_cons.mp h with h1 | h1
        · exact absurd h1 hv
        · exact h1
      simp [rangeExtras, hv, ih this]

theorem rangeExtras_eq_none (a : GoString) (extras : List GoString) (h : a ∉ extras) :
    rangeExtras a extras = none := by
  induction extras with
  | nil => rfl
  | cons v vs ih =>
    have hv : a ≠ v := fun e => h (e ▸ List.mem_cons_self _ _)
    have hvs : a ∉ vs := fun e => h (List.mem_cons_of_mem _ e)
    simp [rangeExtras, hv, ih hvs]

theorem rangeExtras_cases (a : GoString) (extras : List GoString) :
    (rangeExtras a extras = some a ∧ a ∈ extras) ∨ (rangeExtras a extras = none ∧ a ∉ extras) := by
  by_cases h : a ∈ extras
  · exact Or.inl ⟨rangeExtras_eq_some a extras h, h⟩
  · exact Or.inr ⟨rangeExtras_eq_none a extras h, h⟩

/-- The four rules of `makeAction` as one chain of tests, tried in order. -/
theorem makeAction_flat (tbl : Nat → Nat) (r : Controller) (extras : List GoString) :
    r.makeAction tbl extras =
      if r.ctx.params.get (str "id") = [] ∧ r.ctx.Req.Method = str "GET" then str "Index"
      else if r.ctx.params.get (str "id") = [] ∧ r.ctx.Req.Method = str "POST" then str "Create"
      else if r.ctx.params.get (str "action") ≠ [] then
        r.ctx.Req.Method ++ capitalize tbl (r.ctx.params.get (str "action"))
      else if r.ctx.Req.Method ++ capitalize tbl (r.ctx.params.get (str "id")) ∈ extras then
        r.ctx.Req.Method ++ capitalize tbl (r.ctx.params.get (str "id"))
      else if r.ctx.Req.Method = str "GET" then str "Show"
      else if r.ctx.Req.Method = str "POST" ∨ r.ctx.Req.Method = str "PUT" then str "Update"
      else if r.ctx.Req.Method = str "DELETE" then str "Destroy"
      else str "WrongAction" := by
  have hne : str "POST" ≠ str "GET" := by decide
  by_cases hid : r.ctx.params.get (str "id") = []
  · by_cases hg : r.ctx.Req.Method = str "GET"
    · simp [Controller.makeAction, hid, hg]
    · by_cases hp : r.ctx.Req.Method = str "POST"
      · simp [Controller.makeAction, hid, hp, hne]
      · by_cases hact : r.ctx.params.get (str "action") = []
        · rcases rangeExtras_cases (r.ctx.Req.Method ++ capitalize tbl []) extras with
            ⟨h1, h2⟩ | ⟨h1, h2⟩
          · have hlen : 0 < extras.length := List.length_pos_of_mem h2
            simp [Controller.makeAction, hid, hg, hp, hact, h1, h2, hlen]
          · simp [Controller.makeAction, hid, hg, hp, hact, h1, h2]
        · simp [Controller.makeAction, hid, hg, hp, hact]
  · by_cases hact : r.ctx.params.get (str "action") = []
    · rcases rangeExtras_cases (r.ctx.Req.Method ++
          capitalize tbl (r.ctx.params.get (str "id"))) extras with ⟨h1, h2⟩ | ⟨h1, h2⟩
      · have hlen : 0 < extras.length := List.length_pos_of_mem h2
        simp [Controller.makeAction, hid, hact, h1, h2, hlen]
      · simp [Controller.makeAction, hid, hact, h1, h2]
    · simp [Controller.makeAction, hid, hact]

theorem get_eq_nil_of_lookup (m : Params) (k : GoString)
    (h : m.lookup k = none ∨ m.lookup k = some []) : m.get k = [] := by
  rcases h with h | h <;> simp [Params.get, h]

/-- C1: when the route parameters hold no "id" or an empty one, `makeAction` returns "Index" for
the method "GET" and "Create" for the method "POST", whatever the "action" parameter and the
extras are. -/
theorem makeAction_empty_id (tbl : Nat → Nat) (r : Controller) (extras : List GoString)
    (hid : r.ctx.params.lookup (str "id") = none ∨ r.ctx.params.lookup (str "id") = some []) :
    (r.ctx.Req.Method = str "GET" → r.makeAction tbl extras = str "Index") ∧
    (r.ctx.Req.Method = str "POST" → r.makeAction tbl extras = str "Create") := by
  have h := get_eq_nil_of_lookup _ _ hid
  constructor
  · intro hm
    simp [Controller.makeAction, h, hm]
  · intro hm
    have hne : str "POST" ≠ str "GET" := by decide
    simp [Controller.makeAction, h, hm, hne]

theorem makeAction_empty_id_witness :
    Controller.makeAction latin1Upper
      { Root := [], Action := [],
        ctx := { Req := { Method := str "POST" },
                 params := [(str "action", str "publish"), (str "id", [])] } }
      [str "POSTPublish"] = str "Create" :=
  (makeAction_empty_id latin1Upper
      { Root := [], Action := [],
        ctx := { Req := { Method := str "POST" },
                 params := [(str "action", str "publish"), (str "id", [])] } }
      [str "POSTPublish"] (Or.inr (by decide))).2 (by decide)

/-- C2: when "action" is non-empty and rule 1 does not return (not both: "id" empty and the method
"GET" or "POST"), `makeAction` returns the method followed by the capitalized "action", whatever
the extras hold; in particular when the method followed by the capitalized "id" is among them. -/
theorem makeAction_explicit_action (tbl : Nat → Nat) (r : Controller) (extras : List GoString)
    (hact : r.ctx.params.get (str "action") ≠ [])
    (hrule1 : ¬ (r.ctx.params.get (str "id") = [] ∧
      (r.ctx.Req.Method = str "GET" ∨ r.ctx.Req.Method = str "POST"))) :
    r.makeAction tbl extras =
      r.ctx.Req.Method ++ capitalize tbl (r.ctx.params.get (str "action")) := by
  by_cases hid : r.ctx.params.get (str "id") = []
  · have hg : r.ctx.Req.Method ≠ str "GET" := fun e => hrule1 ⟨hid, Or.inl e⟩
    have hp : r.ctx.Req.Method ≠ str "POST" := fun e => hrule1 ⟨hid, Or.inr e⟩
    simp [Controller.makeAction, hid, hg, hp, hact]
  · simp [Controller.makeAction, hid, hact]

theorem makeAction_explicit_action_witness :
    Controller.makeAction latin1Upper
      { Root := [], Action := [],
        ctx := { Req := { Method := str "GET" },
                 params := [(str "id", str "42"), (str "action", str "publish")] } }
      [str "GET42"] = str "GETPublish" :=
  makeAction_explicit_action latin1Upper
      { Root := [], Action := [],
        ctx := { Req := { Method := str "GET" },
                 params := [(str "id", str "42"), (str "action", str "publish")] } }
      [str "GET42"] (by decide) (by decide)

/-- C3: when rule 1 does not return, "action" is empty and the method followed by the capitalized
"id" is an element of the extras, `makeAction` returns that string. -/
theorem makeAction_extra (tbl : Nat → Nat) (r : Controller) (extras : List GoString)
    (hrule1 : ¬ (r.ctx.params.get (str "id") = [] ∧
      (r.ctx.Req.Method = str "GET" ∨ r.ctx.Req.Method = str "POST")))
    (hact : r.ctx.params.get (str "action") = [])
    (hmem : r.ctx.Req.Method ++ capitalize tbl (r.ctx.params.get (str "id")) ∈ extras) :
    r.makeAction tbl extras =
      r.ctx.Req.Method ++ capitalize tbl (r.ctx.params.get (str "id")) := by
  have hlen : 0 < extras.length := List.length_pos_of_mem hmem
  have hr := rangeExtras_eq_some _ _ hmem
  by_cases hid : r.ctx.params.get (str "id") = []
  · have hg : r.ctx.Req.Method ≠ str "GET" := fun e => hrule1 ⟨hid, Or.inl e⟩
    have hp : r.ctx.Req.Method ≠ str "POST" := fun e => hrule1 ⟨hid, Or.inr e⟩
    rw [hid] at hr
    simp [Controller.makeAction, hid, hg, hp, hact, hlen, hr]
  · simp [Controller.makeAction, hid, hact, hlen, hr]

theorem makeAction_extra_witness :
    Controller.makeAction latin1Upper
      { Root := [], Action := [],
        ctx := { Req := { Method := str "GET" }, params := [(str "id", str "activate")] } }
      [str "GETActivate"] = str "GETActivate" :=
  makeAction_extra latin1Upper
      { Root := [], Action := [],
        ctx := { Req := { Method := str "GET" }, params := [(str "id", str "activate")] } }
      [str "GETActivate"] (by decide) (by decide) (by decide)

/-- C4: when rule 1 does not return, "action" is empty and the method followed by the capitalized
"id" is not an element of the extras, `makeAction` returns the default verb mapping: "Show" for
"GET", "Update" for "POST" and for "PUT", "Destroy" for "DELETE", "WrongAction" for every other
method.  An empty "id" with a method other than "GET" and "POST" is among these cases. -/
theorem makeAction_default (tbl : Nat → Nat) (r : Controller) (extras : List GoString)
    (hrule1 : ¬ (r.ctx.params.get (str "id") = [] ∧
      (r.ctx.Req.Method = str "GET" ∨ r.ctx.Req.Method = str "POST")))
    (hact : r.ctx.params.get (str "action") = [])
    (hmem : r.ctx.Req.Method ++ capitalize tbl (r.ctx.params.get (str "id")) ∉ extras) :
    (r.ctx.Req.Method = str "GET" → r.makeAction tbl extras = str "Show") ∧
    (r.ctx.Req.Method = str "POST" → r.makeAction tbl extras = str "Update") ∧
    (r.ctx.Req.Method = str "PUT" → r.makeAction tbl extras = str "Update") ∧
    (r.ctx.Req.Method = str "DELETE" → r.makeAction tbl extras = str "Destroy") ∧
    (r.ctx.Req.Method ≠ str "GET" → r.ctx.Req.Method ≠ str "POST" →
      r.ctx.Req.Method ≠ str "PUT" → r.ctx.Req.Method ≠ str "DELETE" →
      r.makeAction tbl extras = str "WrongAction") := by
  have hr := rangeExtras_eq_none _ _ hmem
  have key : r.makeAction tbl extras =
      (if r.ctx.Req.Method = str "GET" then str "Show"
        else if r.ctx.Req.Method = str "POST" ∨ r.ctx.Req.Method = str "PUT" then str "Update"
        else if r.ctx.Req.Method = str "DELETE" then str "Destroy"
        else str "WrongAction") := by
    by_cases hid : r.ctx.params.get (str "id") = []
    · have hg : r.ctx.Req.Method ≠ str "GET" := fun e => hrule1 ⟨hid, Or.inl e⟩
      have hp : r.ctx.Req.Method ≠ str "POST" := fun e => hrule1 ⟨hid, Or.inr e⟩
      rw [hid] at hr
      simp [Controller.makeAction, hid, hg, hp, hact, hr]
    · simp [Controller.makeAction, hid, hact, hr]
  rw [key]
  have h1 : str "POST" ≠ str "GET" := by decide
  have h2 : str "PUT" ≠ str "GET" := by decide
  have h3 : str "DELETE" ≠ str "GET" := by decide
  have h4 : str "DELETE" ≠ str "POST" := by decide
  have h5 : str "DELETE" ≠ str "PUT" := by decide
  refine ⟨?_, ?_, ?_, ?_, ?_⟩
  · intro hm; simp [hm]
  · intro hm; simp [hm, h1]
  · intro hm; simp [hm, h2]
  · intro hm; simp [hm, h3, h4, h5]
  · intro a b c d; simp [a, b, c, d]

theorem makeAction_default_witness :
    Controller.makeAction latin1Upper
      { Root := [], Action := [],
        ctx := { Req := { Method := str "PUT" }, params := [] } } [] = str "Update" :=
  (makeAction_default latin1Upper
      { Root := [], Action := [],
        ctx := { Req := { Method := str "PUT" }, params := [] } } []
      (by decide) (by decide) (by decide)).2.2.1 (by decide)

/-- C5: `makeAction` is a total function, and its result is always one of "Index", "Create",
"Show", "Update", "Destroy", "WrongAction", or the method followed by the capitalized "action",
or the method followed by the capitalized "id". -/
theorem makeAction_shape (tbl : Nat → Nat) (r : Controller) (extras : List GoString) :
    ∃ a, r.makeAction tbl extras = a ∧
      (a ∈ [str "Index", str "Create", str "Show", str "Update", str "Destroy",
            str "WrongAction"] ∨
        a = r.ctx.Req.Method ++ capitalize tbl (r.ctx.params.get (str "action")) ∨
        a = r.ctx.Req.Method ++ capitalize tbl (r.ctx.params.get (str "id"))) := by
  refine ⟨_, rfl, ?_⟩
  rw [makeAction_flat]
  split_ifs <;> simp

/-! ## `capitalize` -/

theorem encodeRune_ne_nil (r : Nat) : encodeRune r ≠ [] := by
  unfold encodeRune
  split_ifs <;> simp

/-- The lead byte of a three-byte encoding and the range it sets for the second byte. -/
theorem leadInfo_three (r : Nat) (h1 : 0x7FF < r) (h2 : r ≤ 0xFFFF)
    (h3 : r < 0xD800 ∨ 0xDFFF < r) :
    ∃ lo hi, leadInfo (224 + r / 4096) = some (3, lo, hi) ∧
      lo ≤ 128 + r / 64 % 64 ∧ 128 + r / 64 % 64 ≤ hi := by
  unfold leadInfo
  split_ifs
  all_goals first | omega | (refine ⟨_, _, rfl, ?_, ?_⟩ <;> omega)

/-- The lead byte of a four-byte encoding and the range it sets for the second byte. -/
theorem leadInfo_four (r : Nat) (h1 : 0xFFFF < r) (h2 : r ≤ 0x10FFFF) :
    ∃ lo hi, leadInfo (240 + r / 262144) = some (4, lo, hi) ∧
      lo ≤ 128 + r / 4096 % 64 ∧ 128 + r / 4096 % 64 ≤ hi := by
  unfold leadInfo
  split_ifs
  all_goals first | omega | (refine ⟨_, _, rfl, ?_, ?_⟩ <;> omega)

/-- Decoding reads back a rune from its encoding, whatever follows it. -/
theorem decode_encode (r : Nat) (t : GoString) (hr : ValidRune r = true) :
    DecodeRuneInString (encodeRune r ++ t) = (r, (encodeRune r).length) := by
  simp only [ValidRune, MaxRune, Bool.or_eq_true, Bool.and_eq_true, decide_eq_true_eq] at hr
  unfold encodeRune
  simp only [MaxRune]
  split_ifs with h1 h2 h3 h4
  · have : r < 128 := by omega
    simp [DecodeRuneInString, this]
  · have h5 : ¬ (192 + r / 64 < 128) := by omega
    have h6 : leadInfo (192 + r / 64) = some (2, 0x80, 0xBF) := by
      unfold leadInfo
      rw [if_pos (by omega)]
    simp only [DecodeRuneInString, List.cons_append, List.nil_append, h5, if_false, h6]
    rw [if_neg (by simp), if_neg (by omega), if_pos (by omega)]
    simp only [List.length_cons, List.length_nil, Prod.mk.injEq, and_true]
    omega
  · omega
  · have h5 : ¬ (224 + r / 4096 < 128) := by omega
    obtain ⟨lo, hi, h6, hlo, hhi⟩ := leadInfo_three r (by omega) (by omega) (by omega)
    simp only [DecodeRuneInString, List.cons_append, List.nil_append, h5, if_false, h6]
    rw [if_neg (by simp), if_neg (by omega), if_neg (by omega), if_neg (by omega),
      if_pos (by omega)]
    simp only [List.length_cons, List.length_nil, Prod.mk.injEq, and_true]
    omega
  · have h5 : ¬ (240 + r / 262144 < 128) := by omega
    obtain ⟨lo, hi, h6, hlo, hhi⟩ := leadInfo_four r (by omega) (by omega)
    simp only [DecodeRuneInString, List.cons_append, List.nil_append, h5, if_false, h6]
    rw [if_neg (by simp), if_neg (by omega), if_neg (by omega), if_neg (by omega),
      if_neg (by omega), if_neg (by omega)]
    simp only [List.length_cons, List.length_nil, Prod.mk.injEq, and_true]
    omega

/-- What `leadInfo` says about a lead byte: the size of the sequence and the bounds on the
second byte. -/
theorem leadInfo_some (s0 sz lo hi : Nat) (h : leadInfo s0 = some (sz, lo, hi)) :
    0x80 ≤ lo ∧ hi ≤ 0xBF ∧
    ((sz = 2 ∧ 0xC2 ≤ s0 ∧ s0 ≤ 0xDF) ∨
     (sz = 3 ∧ 0xE0 ≤ s0 ∧ s0 ≤ 0xEF ∧ (s0 = 0xED → hi = 0x9F)) ∨
     (sz = 4 ∧ 0xF0 ≤ s0 ∧ s0 ≤ 0xF4 ∧ (s0 = 0xF0 → lo = 0x90) ∧ (s0 = 0xF4 → hi = 0x8F))) := by
  unfold leadInfo at h
  split_ifs at h <;>
    simp only [Option.some.injEq, Prod.mk.injEq, reduceCtorEq] at h <;>
    omega

/-- The rune `DecodeRuneInString` returns is always a valid code point. -/
theorem decode_valid (s : GoString) : ValidRune (DecodeRuneInString s).1 = true := by
  simp only [ValidRune, MaxRune, Bool.or_eq_true, Bool.and_eq_true, decide_eq_true_eq]
  rcases s with _ | ⟨s0, rest⟩
  · simp [DecodeRuneInString, RuneError]
  · unfold DecodeRuneInString
    by_cases h0 : s0 < 0x80
    · simp only [h0, if_true]
      omega
    · simp only [h0, if_false]
      cases hl : leadInfo s0 with
      | none => simp [RuneError]
      | some v =>
        obtain ⟨sz, lo, hi⟩ := v
        have hli := leadInfo_some s0 sz lo hi hl
        rcases rest with _ | ⟨s1, _ | ⟨s2, _ | ⟨s3, rest⟩⟩⟩ <;> simp only [] <;> split_ifs <;>
          first
            | (simp [RuneError]; done)
            | (simp only []; omega)

/-- On a non-empty string `capitalize` is the encoding of the upper-cased first rune followed by
the bytes after that rune. -/
theorem capitalize_of_ne_nil (tbl : Nat → Nat) (s : GoString) (h : s ≠ []) :
    capitalize tbl s =
      encodeRune (ToUpper tbl (DecodeRuneInString s).1) ++ s.drop (DecodeRuneInString s).2 := by
  simp [capitalize, h]

/-- On a string that starts with the encoding of a valid rune: upper-case that rune, keep the
rest. -/
theorem capitalize_encode (tbl : Nat → Nat) (c : Nat) (t : GoString) (hc : ValidRune c = true) :
    capitalize tbl (encodeRune c ++ t) = encodeRune (ToUpper tbl c) ++ t := by
  have hne : encodeRune c ++ t ≠ [] := by
    simp [encodeRune_ne_nil]
  rw [capitalize_of_ne_nil tbl _ hne, decode_encode c t hc]
  simp

/-- C6: `capitalize` leaves the empty string alone; on a string made of a first character `c`
(in UTF-8) and a remainder `t` it gives the encoding of `upper c` followed by `t`, untouched;
on every non-empty string the first character and the remainder are those that
`utf8.DecodeRuneInString` reads; `upper` is `unicode.ToUpper`, so that with é mapped to É,
"émile" becomes "Émile". -/
theorem capitalize_spec (tbl : Nat → Nat) :
    capitalize tbl [] = [] ∧
    (∀ (c : Nat) (t : GoString), ValidRune c = true →
      capitalize tbl (encodeRune c ++ t) = encodeRune (ToUpper tbl c) ++ t ∧
      (capitalize tbl (encodeRune c ++ t)).drop (encodeRune (ToUpper tbl c)).length = t) ∧
    (∀ s : GoString, s ≠ [] →
      capitalize tbl s =
        encodeRune (ToUpper tbl (DecodeRuneInString s).1) ++ s.drop (DecodeRuneInString s).2) ∧
    (tbl 0xE9 = 0xC9 → capitalize tbl (str "émile") = str "Émile") := by
  refine ⟨rfl, ?_, capitalize_of_ne_nil tbl, ?_⟩
  · intro c t hc
    rw [capitalize_encode tbl c t hc]
    exact ⟨rfl, by simp⟩
  · intro h
    have h1 : str "émile" = encodeRune 0xE9 ++ str "mile" := by decide
    have h2 : ToUpper tbl 0xE9 = 0xC9 := by simp [ToUpper, h]
    rw [h1, capitalize_encode tbl _ _ (by decide), h2]
    decide

theorem capitalize_spec_witness :
    capitalize latin1Upper (str "émile") = str "Émile" :=
  (capitalize_spec latin1Upper).2.2.2 (by decide)

/-- The hypotheses of idempotence hold of the Latin-1 rows of the case table: a valid rune stays
valid. -/
theorem latin1Upper_valid (r : Nat) (h : ValidRune r = true) :
    ValidRune (ToUpper latin1Upper r) = true := by
  simp only [ValidRune, MaxRune, Bool.or_eq_true, Bool.and_eq_true, decide_eq_true_eq] at h ⊢
  unfold ToUpper latin1Upper
  split_ifs <;> omega

/-- The hypotheses of idempotence hold of the Latin-1 rows of the case table: upper-casing
twice is upper-casing once. -/
theorem latin1Upper_idem (r : Nat) :
    ToUpper latin1Upper (ToUpper latin1Upper r) = ToUpper latin1Upper r := by
  have hA : ∀ u, u = ToUpper latin1Upper r →
      ¬ (0x61 ≤ u ∧ u ≤ 0x7A) ∧ u ≠ 0xB5 ∧ ¬ (0xE0 ≤ u ∧ u ≤ 0xF6) ∧
        ¬ (0xF8 ≤ u ∧ u ≤ 0xFE) ∧ u ≠ 0xFF := by
    intro u hu
    unfold ToUpper latin1Upper at hu
    split_ifs at hu <;> omega
  have hB : ∀ u, (¬ (0x61 ≤ u ∧ u ≤ 0x7A) ∧ u ≠ 0xB5 ∧ ¬ (0xE0 ≤ u ∧ u ≤ 0xF6) ∧
        ¬ (0xF8 ≤ u ∧ u ≤ 0xFE) ∧ u ≠ 0xFF) → ToUpper latin1Upper u = u := by
    intro u hu
    unfold ToUpper latin1Upper
    split_ifs <;> omega
  exact hB _ (hA _ rfl)

/-- C7: `capitalize` is idempotent, for a case table under which `unicode.ToUpper` keeps valid
runes valid and is itself idempotent on them (both hold of the Unicode table). -/
theorem capitalize_idempotent (tbl : Nat → Nat)
    (hvalid : ∀ r, ValidRune r = true → ValidRune (ToUpper tbl r) = true)
    (hidem : ∀ r, ValidRune r = true → ToUpper tbl (ToUpper tbl r) = ToUpper tbl r)
    (s : GoString) :
    capitalize tbl (capitalize tbl s) = capitalize tbl s := by
  by_cases hs : s = []
  · subst hs
    rfl
  · have hr := decode_valid s
    rw [capitalize_of_ne_nil tbl s hs,
      capitalize_encode tbl _ _ (hvalid _ hr), hidem _ hr]

theorem capitalize_idempotent_witness :
    capitalize latin1Upper (capitalize latin1Upper (str "émile")) =
      capitalize latin1Upper (str "émile") :=
  capitalize_idempotent latin1Upper latin1Upper_valid (fun r _ => latin1Upper_idem r)
    (str "émile")

/-! ## `path.Clean`: the loop and its fuel -/

theorem takeWhile_nil_iff_atEnd (t : List Nat) :
    t.takeWhile (fun b => b ≠ 47) = [] ↔ atEnd t = true := by
  cases t with
  | nil => simp [atEnd]
  | cons c t =>
    by_cases h : c = 47
    · simp [atEnd, h]
    · simp [atEnd, h]

theorem dropWhile_length_le (c : Nat) (t : List Nat) (h : c ≠ 47) :
    ((c :: t).dropWhile (fun b => b ≠ 47)).length ≤ t.length := by
  have h1 : (c :: t).dropWhile (fun b => b ≠ 47) = t.dropWhile (fun b => b ≠ 47) := by
    simp [List.dropWhile_cons, h]
  rw [h1]
  exact (List.dropWhile_sublist _).length_le

/-- The result of the loop does not depend on the fuel, once there is one unit of it per unread
byte: with `path.length` units the loop of `Clean` runs until the input is used up. -/
theorem cleanLoop_fuel (rooted : Bool) (f1 : Nat) :
    ∀ (f2 : Nat) (rest out : List Nat) (dotdot : Nat), rest.length ≤ f1 → rest.length ≤ f2 →
      cleanLoop rooted f1 rest out dotdot = cleanLoop rooted f2 rest out dotdot := by
  induction f1 with
  | zero =>
    intro f2 rest out dotdot h1 _
    have hr : rest = [] := List.length_eq_zero.mp (Nat.le_zero.mp h1)
    subst hr
    cases f2 <;> simp [cleanLoop]
  | succ n ih =>
    intro f2 rest out dotdot h1 h2
    cases rest with
    | nil => cases f2 <;> simp [cleanLoop]
    | cons c t =>
      cases f2 with
      | zero => simp at h2
      | succ m =>
        have ht1 : t.length ≤ n := by simpa using h1
        have ht2 : t.length ≤ m := by simpa using h2
        have htl : t.tail.length ≤ t.length := by simp
        simp only [cleanLoop]
        by_cases c1 : c = 47
        · simp only [c1, if_true]
          exact ih _ _ _ _ ht1 ht2
        · have hd := dropWhile_length_le c t c1
          simp only [c1, if_false]
          split_ifs <;> first
            | exact ih _ _ _ _ ht1 ht2
            | exact ih _ _ _ _ (le_trans htl ht1) (le_trans htl ht2)
            | exact ih _ _ _ _ (le_trans hd ht1) (le_trans hd ht2)

/-! ## `path.Clean`: backtracking over the last element -/

theorem unwind_to_slash (dotdot : Nat) (base : List Nat) (h : dotdot ≤ base.length) :
    ∀ (xs : List Nat) (c : Nat), (∀ x ∈ xs, x ≠ 47) → c ≠ 47 →
      unwind dotdot (xs ++ 47 :: base) c = base := by
  intro xs
  induction xs with
  | nil =>
    intro c _ hc
    have h1 : (47 :: base).length > dotdot := by
      simp only [List.length_cons]
      omega
    simp only [List.nil_append, unwind]
    rw [if_pos ⟨h1, hc⟩]
    cases base with
    | nil => rfl
    | cons b bs => simp [unwind]
  | cons x xs ih =>
    intro c hxs hc
    have hx : x ≠ 47 := hxs x (List.mem_cons_self _ _)
    have hlen : (x :: (xs ++ 47 :: base)).length > dotdot := by
      simp only [List.length_cons, List.length_append]
      omega
    simp only [List.cons_append, unwind]
    rw [if_pos ⟨hlen, hc⟩]
    exact ih x (fun y hy => hxs y (List.mem_cons_of_mem _ hy)) hx

theorem unwind_to_dotdot (dotdot : Nat) (base : List Nat) (h : base.length = dotdot) :
    ∀ (xs : List Nat) (c : Nat), (∀ x ∈ xs, x ≠ 47) → c ≠ 47 →
      unwind dotdot (xs ++ base) c = base := by
  intro xs
  induction xs with
  | nil =>
    intro c _ _
    cases base with
    | nil => simp [unwind]
    | cons b bs =>
      simp only [List.nil_append, unwind]
      rw [if_neg (by omega)]
  | cons x xs ih =>
    intro c hxs hc
    have hx : x ≠ 47 := hxs x (List.mem_cons_self _ _)
    have hlen : (x :: (xs ++ base)).length > dotdot := by
      simp only [List.length_cons, List.length_append]
      omega
    simp only [List.cons_append, unwind]
    rw [if_pos ⟨hlen, hc⟩]
    exact ih x (fun y hy => hxs y (List.mem_cons_of_mem _ hy)) hx

/-- Backtracking over "/s" gives up the element and its '/'. -/
theorem backtrack_slash (dotdot : Nat) (base s : List Nat) (h : dotdot ≤ base.length)
    (hne : s ≠ []) (hs : 47 ∉ s) : backtrack dotdot (base ++ 47 :: s) = base := by
  rcases List.eq_nil_or_concat s with h0 | ⟨xs, c, h1⟩
  · exact absurd h0 hne
  · rw [List.concat_eq_append] at h1
    subst h1
    have hrev : (base ++ 47 :: (xs ++ [c])).reverse = c :: (xs.reverse ++ 47 :: base.reverse) := by
      simp
    have hc : c ≠ 47 := fun e => hs (by simp [e])
    have hxs : ∀ x ∈ xs.reverse, x ≠ 47 := by
      intro x hx e
      exact hs (by simp [← e, List.mem_reverse.mp hx])
    unfold backtrack
    rw [hrev]
    simp only []
    rw [unwind_to_slash dotdot base.reverse (by simpa using h) _ _ hxs hc]
    simp

/-- Backtracking over an element that starts at `dotdot` gives up the element only. -/
theorem backtrack_first (dotdot : Nat) (base s : List Nat) (h : base.length = dotdot)
    (hne : s ≠ []) (hs : 47 ∉ s) : backtrack dotdot (base ++ s) = base := by
  rcases List.eq_nil_or_concat s with h0 | ⟨xs, c, h1⟩
  · exact absurd h0 hne
  · rw [List.concat_eq_append] at h1
    subst h1
    have hrev : (base ++ (xs ++ [c])).reverse = c :: (xs.reverse ++ base.reverse) := by
      simp
    have hc : c ≠ 47 := fun e => hs (by simp [e])
    have hxs : ∀ x ∈ xs.reverse, x ≠ 47 := by
      intro x hx e
      exact hs (by simp [← e, List.mem_reverse.mp hx])
    unfold backtrack
    rw [hrev]
    simp only []
    rw [unwind_to_dotdot dotdot base.reverse (by simpa using h) _ _ hxs hc]
    simp

/-! ## Rendering of rooted paths -/

theorem joinSegs_append (a b : List (List Nat)) : joinSegs (a ++ b) = joinSegs a ++ joinSegs b := by
  simp [joinSegs]

theorem joinSegs_cons (s : List Nat) (ss : List (List Nat)) :
    joinSegs (s :: ss) = 47 :: (s ++ joinSegs ss) := by
  simp [joinSegs]

theorem render_ne_nil (segs : List (List Nat)) : render segs ≠ [] := by
  unfold render
  cases segs with
  | nil => simp
  | cons s ss => simp [joinSegs_cons]

theorem render_head (segs : List (List Nat)) : (render segs).head? = some 47 := by
  unfold render
  cases segs with
  | nil => simp
  | cons s ss => simp [joinSegs_cons]

theorem render_length_one (segs : List (List Nat)) (h : ∀ s ∈ segs, GoodSeg s) :
    (render segs).length = 1 ↔ segs = [] := by
  cases segs with
  | nil => simp [render]
  | cons s ss =>
    have hs : s ≠ [] := (h s (List.mem_cons_self _ _)).1
    have : 0 < s.length := List.length_pos.mpr hs
    simp only [render, joinSegs_cons, reduceCtorEq, if_false, List.length_cons,
      List.length_append, iff_false]
    omega

/-- Writing one more element: a '/' first unless the buffer is just the root. -/
theorem render_snoc (segs : List (List Nat)) (s : List Nat) (h : ∀ x ∈ segs, GoodSeg x)
    (P : Prop) [Decidable P] (hP : P ↔ (render segs).length ≠ 1) :
    (if P then render segs ++ [47] else render segs) ++ s = render (segs ++ [s]) := by
  have hl := render_length_one segs h
  by_cases hs : segs = []
  · subst hs
    have : ¬ P := fun hp => (hP.mp hp) (by simp [render])
    rw [if_neg this]
    simp [render, joinSegs]
  · have h1 : (render segs).length ≠ 1 := fun e => hs (hl.mp e)
    rw [if_pos (hP.mpr h1)]
    simp [render, hs, joinSegs_append, joinSegs_cons, joinSegs]

/-- Backtracking in a rooted path drops its last element. -/
theorem backtrack_render (segs : List (List Nat)) (s : List Nat)
    (h : ∀ x ∈ segs ++ [s], GoodSeg x) :
    backtrack 1 (render (segs ++ [s])) = render segs := by
  have hs : GoodSeg s := h s (by simp)
  by_cases h0 : segs = []
  · subst h0
    have : render ([] ++ [s]) = [47] ++ s := by simp [render, joinSegs]
    rw [this]
    exact backtrack_first 1 [47] s rfl hs.1 hs.2.1
  · have h1 : render (segs ++ [s]) = render segs ++ 47 :: s := by
      simp [render, h0, joinSegs_append, joinSegs]
    rw [h1]
    have h2 : 1 ≤ (render segs).length := List.length_pos.mpr (render_ne_nil segs)
    exact backtrack_slash 1 (render segs) s h2 hs.1 hs.2.1

/-! ## `path.Clean` on rooted paths -/

/-- The bytes the loop copies as a real path element form an element worth keeping. -/
theorem takeWhile_good (c : Nat) (t : List Nat) (h1 : c ≠ 47)
    (h2 : ¬ (c = 46 ∧ atEnd t = true))
    (h3 : ¬ (c = 46 ∧ t.head? = some 46 ∧ atEnd t.tail = true)) :
    GoodSeg ((c :: t).takeWhile (fun b => b ≠ 47)) := by
  have hc : (c :: t).takeWhile (fun b => b ≠ 47) = c :: t.takeWhile (fun b => b ≠ 47) := by
    simp [List.takeWhile_cons, h1]
  rw [hc]
  refine ⟨by simp, ?_, ?_, ?_⟩
  · intro hm
    rcases List.mem_cons.mp hm with e | e
    · exact h1 e.symm
    · have := List.mem_takeWhile_imp e
      simp at this
  · intro e
    obtain ⟨e1, e2⟩ := List.cons.inj e
    exact h2 ⟨e1, (takeWhile_nil_iff_atEnd t).mp e2⟩
  · intro e
    obtain ⟨e1, e2⟩ := List.cons.inj e
    cases t with
    | nil => simp at e2
    | cons d t' =>
      by_cases hd : d = 47
      · simp [hd] at e2
      · simp only [List.takeWhile_cons, ne_eq, hd, not_false_eq_true, decide_True, if_true,
          List.cons.injEq] at e2
        exact h3 ⟨e1, by simp [e2.1], (takeWhile_nil_iff_atEnd t').mp e2.2⟩

/-- The loop invariant of `Clean` on a rooted path: the buffer is always a rendering of kept
elements. -/
theorem cleanLoop_rooted_render (fuel : Nat) :
    ∀ (rest : List Nat) (segs : List (List Nat)), (∀ s ∈ segs, GoodSeg s) →
      ∃ segs', (∀ s ∈ segs', GoodSeg s) ∧
        cleanLoop true fuel rest (render segs) 1 = render segs' := by
  induction fuel with
  | zero =>
    intro rest segs h
    exact ⟨segs, h, by simp [cleanLoop]⟩
  | succ n ih =>
    intro rest segs h
    cases rest with
    | nil => exact ⟨segs, h, by simp [cleanLoop]⟩
    | cons c t =>
      simp only [cleanLoop]
      by_cases c1 : c = 47
      · rw [if_pos c1]
        exact ih t segs h
      · rw [if_neg c1]
        by_cases c2 : c = 46 ∧ atEnd t = true
        · rw [if_pos c2]
          exact ih t segs h
        · rw [if_neg c2]
          by_cases c3 : c = 46 ∧ t.head? = some 46 ∧ atEnd t.tail = true
          · rw [if_pos c3]
            by_cases c4 : (render segs).length > 1
            · rw [if_pos c4]
              have hne : segs ≠ [] := by
                intro e
                rw [e] at c4
                simp [render] at c4
              rcases List.eq_nil_or_concat segs with e | ⟨init, s, e⟩
              · exact absurd e hne
              · rw [List.concat_eq_append] at e
                subst e
                rw [backtrack_render init s h]
                exact ih _ init (fun x hx => h x (by simp [hx]))
            · rw [if_neg c4]
              simp only [not_true_eq_false, if_false]
              exact ih _ segs h
          · rw [if_neg c3]
            have hg := takeWhile_good c t c1 c2 c3
            rw [render_snoc segs _ h _ (by simp)]
            refine ih _ (segs ++ [_]) ?_
            intro x hx
            rcases List.mem_append.mp hx with hx | hx
            · exact h x hx
            · rw [List.mem_singleton.mp hx]
              exact hg

theorem atEnd_append_nil (s Z : List Nat) (hs : 47 ∉ s) (h : atEnd (s ++ Z) = true) : s = [] := by
  cases s with
  | nil => rfl
  | cons d s' =>
    exfalso
    apply hs
    simp only [List.cons_append, atEnd, beq_iff_eq] at h
    simp [h]

theorem atEnd_head_ne (Z : List Nat) (h : atEnd Z = true) : Z.head? ≠ some 46 := by
  cases Z with
  | nil => simp
  | cons d Z' =>
    simp only [atEnd, beq_iff_eq] at h
    simp [h]

theorem dropWhile_atEnd (Z : List Nat) (h : atEnd Z = true) :
    Z.dropWhile (fun b => b ≠ 47) = Z := by
  cases Z with
  | nil => rfl
  | cons d Z' =>
    simp only [atEnd, beq_iff_eq] at h
    simp [h]

theorem atEnd_joinSegs (post : List (List Nat)) (tl : List Nat) (htl : tl = [] ∨ tl = [47]) :
    atEnd (joinSegs post ++ tl) = true := by
  cases post with
  | nil => rcases htl with e | e <;> simp [e, joinSegs, atEnd]
  | cons s ss => simp [joinSegs_cons, atEnd]

/-- One round of the loop on a kept element that is followed by a '/' or by the end of the path:
the element is written out as it stands. -/
theorem cleanLoop_element (n : Nat) (s Z : List Nat) (pre : List (List Nat))
    (hpre : ∀ x ∈ pre, GoodSeg x) (hs : GoodSeg s) (hZ : atEnd Z = true) :
    cleanLoop true (n + 1) (s ++ Z) (render pre) 1 = cleanLoop true n Z (render (pre ++ [s])) 1 := by
  obtain ⟨hne, h47, hdot, hdotdot⟩ := hs
  cases s with
  | nil => exact absurd rfl hne
  | cons c s' =>
    have c1 : c ≠ 47 := fun e => h47 (by simp [e])
    have hs' : 47 ∉ s' := fun e => h47 (List.mem_cons_of_mem _ e)
    have c2 : ¬ (c = 46 ∧ atEnd (s' ++ Z) = true) := by
      rintro ⟨e1, e2⟩
      have := atEnd_append_nil s' Z hs' e2
      exact hdot (by rw [e1, this])
    have c3 : ¬ (c = 46 ∧ (s' ++ Z).head? = some 46 ∧ atEnd (s' ++ Z).tail = true) := by
      rintro ⟨e1, e2, e3⟩
      cases s' with
      | nil => exact atEnd_head_ne Z hZ e2
      | cons d s'' =>
        have hd : d = 46 := by simpa using e2
        have hs'' : 47 ∉ s'' := fun e => hs' (List.mem_cons_of_mem _ e)
        have := atEnd_append_nil s'' Z hs'' (by simpa using e3)
        exact hdotdot (by rw [e1, hd, this])
    have hall : ∀ a ∈ c :: s', (fun b => decide (b ≠ 47)) a = true := by
      intro a ha
      have : a ≠ 47 := fun e => h47 (e ▸ ha)
      simpa using this
    have htk : (c :: (s' ++ Z)).takeWhile (fun b => b ≠ 47) = c :: s' := by
      have := @List.takeWhile_append_of_pos Nat (fun b => decide (b ≠ 47)) (c :: s') Z hall
      rw [(takeWhile_nil_iff_atEnd Z).mpr hZ] at this
      simpa using this
    have hdr : (c :: (s' ++ Z)).dropWhile (fun b => b ≠ 47) = Z := by
      have := @List.dropWhile_append_of_pos Nat (fun b => decide (b ≠ 47)) (c :: s') Z hall
      rw [dropWhile_atEnd Z hZ] at this
      simpa using this
    show cleanLoop true (n + 1) (c :: (s' ++ Z)) (render pre) 1 = _
    generalize s' ++ Z = T at c2 c3 htk hdr
    simp only [cleanLoop]
    rw [if_neg c1, if_neg c2, if_neg c3, htk, hdr, render_snoc pre _ hpre _ (by simp)]

/-- The loop of `Clean` on a path made of kept elements writes them out unchanged, and a single
trailing '/' is dropped. -/
theorem cleanLoop_joined (post : List (List Nat)) :
    ∀ (pre : List (List Nat)) (tl : List Nat) (fuel : Nat), (∀ x ∈ pre, GoodSeg x) →
      (∀ x ∈ post, GoodSeg x) → (tl = [] ∨ tl = [47]) → (joinSegs post ++ tl).length ≤ fuel →
      cleanLoop true fuel (joinSegs post ++ tl) (render pre) 1 = render (pre ++ post) := by
  induction post with
  | nil =>
    intro pre tl fuel _ _ htl hfuel
    rcases htl with e | e
    · subst e
      cases fuel <;> simp [joinSegs, cleanLoop]
    · subst e
      cases fuel with
      | zero => simp [joinSegs] at hfuel
      | succ f => cases f <;> simp [joinSegs, cleanLoop]
  | cons s post' ih =>
    intro pre tl fuel hpre hpost htl hfuel
    have hs : GoodSeg s := hpost s (List.mem_cons_self _ _)
    have hpost' : ∀ x ∈ post', GoodSeg x := fun x hx => hpost x (List.mem_cons_of_mem _ hx)
    have hslen : 0 < s.length := List.length_pos.mpr hs.1
    rw [joinSegs_cons] at hfuel ⊢
    simp only [List.cons_append, List.length_cons, List.length_append] at hfuel
    cases fuel with
    | zero => omega
    | succ f =>
      cases f with
      | zero => omega
      | succ f' =>
        have hstep : cleanLoop true (f' + 1 + 1) (47 :: (s ++ joinSegs post') ++ tl) (render pre) 1 =
            cleanLoop true (f' + 1) (s ++ (joinSegs post' ++ tl)) (render pre) 1 := by
          simp [cleanLoop]
        rw [hstep, cleanLoop_element f' s _ pre hpre hs (atEnd_joinSegs post' tl htl)]
        have hpre' : ∀ x ∈ pre ++ [s], GoodSeg x := by
          intro x hx
          rcases List.mem_append.mp hx with hx | hx
          · exact hpre x hx
          · rw [List.mem_singleton.mp hx]
            exact hs
        rw [ih (pre ++ [s]) tl f' hpre' hpost' htl (by simp only [List.length_append]; omega)]
        simp

/-- On a rooted path `Clean` is the loop started behind the leading '/'. -/
theorem Clean_rooted_eq (q : List Nat) :
    Clean (47 :: q) = cleanLoop true (q.length + 1) q [47] 1 := by
  obtain ⟨segs, _, h⟩ := cleanLoop_rooted_render (q.length + 1) q [] (by simp)
  have h0 : render [] = [47] := rfl
  rw [h0] at h
  have hne := render_ne_nil segs
  rw [← h] at hne
  simp [Clean, hne]

/-- The result of `Clean` on a rooted path is a rendering of kept elements. -/
theorem Clean_rooted (q : List Nat) :
    ∃ segs, (∀ s ∈ segs, GoodSeg s) ∧ Clean (47 :: q) = render segs := by
  rw [Clean_rooted_eq]
  exact cleanLoop_rooted_render (q.length + 1) q [] (by simp)

/-- A rendering of kept elements is a fixed point of `Clean`, also with one '/' behind it. -/
theorem Clean_render (segs : List (List Nat)) (tl : List Nat) (h : ∀ s ∈ segs, GoodSeg s)
    (htl : tl = [] ∨ tl = [47]) : Clean (render segs ++ tl) = render segs := by
  cases segs with
  | nil => rcases htl with e | e <;> subst e <;> decide
  | cons s ss =>
    have hr : render (s :: ss) = 47 :: (s ++ joinSegs ss) := by
      simp [render, joinSegs_cons]
    have hj := cleanLoop_joined (s :: ss) [] tl ((s ++ joinSegs ss ++ tl).length + 1 + 1)
      (by simp) h htl (by simp [joinSegs_cons])
    have hstep : cleanLoop true ((s ++ joinSegs ss ++ tl).length + 1 + 1)
        (joinSegs (s :: ss) ++ tl) (render []) 1 =
        cleanLoop true ((s ++ joinSegs ss ++ tl).length + 1) (s ++ joinSegs ss ++ tl) [47] 1 := by
      rw [joinSegs_cons]
      show cleanLoop true (_ + 1) (47 :: (s ++ joinSegs ss ++ tl)) [47] 1 = _
      rw [cleanLoop, if_pos rfl]
    rw [hstep] at hj
    rw [hr]
    show Clean (47 :: (s ++ joinSegs ss ++ tl)) = _
    rw [Clean_rooted_eq, hj, List.nil_append, hr]

theorem render_getLast (segs : List (List Nat)) (h : ∀ s ∈ segs, GoodSeg s) (hne : segs ≠ []) :
    (render segs).getLast? ≠ some 47 := by
  rcases List.eq_nil_or_concat segs with e | ⟨init, s, e⟩
  · exact absurd e hne
  · rw [List.concat_eq_append] at e
    subst e
    have hs : GoodSeg s := h s (by simp)
    rcases List.eq_nil_or_concat s with e | ⟨xs, c, e⟩
    · exact absurd e hs.1
    · rw [List.concat_eq_append] at e
      subst e
      have hc : c ≠ 47 := fun e => hs.2.1 (by simp [e])
      have : render (init ++ [xs ++ [c]]) = (joinSegs init ++ 47 :: xs) ++ [c] := by
        simp [render, joinSegs_append, joinSegs]
      rw [this, List.getLast?_append]
      simpa using hc

/-! ## `cleanPath` -/

/-- The shape of every result of `cleanPath`: a rendering of kept elements, with a trailing
'/' or without. -/
theorem cleanPath_form (p : GoString) :
    ∃ segs, (∀ s ∈ segs, GoodSeg s) ∧
      (cleanPath p = render segs ∨ (segs ≠ [] ∧ cleanPath p = render segs ++ [47])) := by
  by_cases hp : p = []
  · exact ⟨[], by simp, Or.inl (by simp [cleanPath, hp, render])⟩
  · have hq : ∃ q, (if p.head? ≠ some 47 then 47 :: p else p) = 47 :: q := by
      by_cases h : p.head? = some 47
      · cases p with
        | nil => exact absurd rfl hp
        | cons c t =>
          have hc : c = 47 := by simpa using h
          exact ⟨t, by simp [hc]⟩
      · exact ⟨p, by simp [h]⟩
    obtain ⟨q, hq⟩ := hq
    obtain ⟨segs, hgood, hclean⟩ := Clean_rooted q
    refine ⟨segs, hgood, ?_⟩
    simp only [cleanPath, hp, if_false]
    rw [hq, hclean]
    by_cases hc : (47 :: q).getLast? = some 47 ∧ render segs ≠ [47]
    · rw [if_pos hc]
      right
      refine ⟨?_, rfl⟩
      intro e
      exact hc.2 (by rw [e]; rfl)
    · rw [if_neg hc]
      exact Or.inl rfl

theorem cleanPath_render (segs : List (List Nat)) (h : ∀ s ∈ segs, GoodSeg s) :
    cleanPath (render segs) = render segs := by
  have hne := render_ne_nil segs
  have hhd := render_head segs
  have hcl := Clean_render segs [] h (Or.inl rfl)
  rw [List.append_nil] at hcl
  simp only [cleanPath, hne, if_false, hhd, ne_eq, not_true_eq_false, hcl]
  by_cases hs : segs = []
  · subst hs
    simp [render]
  · rw [if_neg]
    rintro ⟨h1, _⟩
    exact render_getLast segs h hs h1

theorem cleanPath_render_slash (segs : List (List Nat)) (h : ∀ s ∈ segs, GoodSeg s)
    (hs : segs ≠ []) : cleanPath (render segs ++ [47]) = render segs ++ [47] := by
  have hne : render segs ++ [47] ≠ [] := by simp
  have hhd : (render segs ++ [47]).head? = some 47 := by
    rw [List.head?_append_of_ne_nil _ (render_ne_nil segs)]
    exact render_head segs
  have hcl := Clean_render segs [47] h (Or.inr rfl)
  have h1 : render segs ≠ [47] := by
    intro e
    have := (render_length_one segs h).mp (by rw [e]; rfl)
    exact hs this
  simp only [cleanPath, hne, if_false, hhd, ne_eq, not_true_eq_false, hcl]
  rw [if_pos ⟨by simp, h1⟩]

/-- The '/'-separated pieces of a path made of '/'-free pieces. -/
theorem splitOn_joined (ss : List (List Nat)) :
    ∀ (s tl : List Nat), 47 ∉ s → (∀ x ∈ ss, 47 ∉ x) → (tl = [] ∨ tl = [47]) →
      (s ++ joinSegs ss ++ tl).splitOn 47 = s :: ss ++ (if tl = [] then [] else [[]]) := by
  induction ss with
  | nil =>
    intro s tl hs _ htl
    have hp : ∀ x ∈ s, ¬ ((fun b => b == 47) x = true) := by
      intro x hx e
      exact hs ((beq_iff_eq.mp e) ▸ hx)
    rcases htl with e | e
    · subst e
      simp only [joinSegs, List.flatMap_nil, List.append_nil, List.splitOn, if_true]
      exact List.splitOnP_eq_single _ _ hp
    · subst e
      simp only [joinSegs, List.flatMap_nil, List.append_nil, List.splitOn]
      rw [List.splitOnP_first _ _ hp 47 (by simp)]
      simp
  | cons s' ss' ih =>
    intro s tl hs hss htl
    have hp : ∀ x ∈ s, ¬ ((fun b => b == 47) x = true) := by
      intro x hx e
      exact hs ((beq_iff_eq.mp e) ▸ hx)
    have e1 : s ++ joinSegs (s' :: ss') ++ tl = s ++ 47 :: (s' ++ joinSegs ss' ++ tl) := by
      simp [joinSegs_cons]
    have ih' := ih s' tl (hss s' (List.mem_cons_self _ _))
      (fun x hx => hss x (List.mem_cons_of_mem _ hx)) htl
    rw [e1]
    simp only [List.splitOn] at ih' ⊢
    rw [List.splitOnP_first _ _ hp 47 (by simp), ih']
    simp

theorem chain_noslash (s : List Nat) (h : 47 ∉ s) :
    List.Chain' (fun a b : Nat => ¬ (a = 47 ∧ b = 47)) s := by
  induction s with
  | nil => exact List.chain'_nil
  | cons c t ih =>
    rw [List.chain'_cons']
    refine ⟨?_, ih (fun e => h (List.mem_cons_of_mem _ e))⟩
    intro y _ e
    exact h (by simp [e.1])

/-- No two neighbours are both '/' in a path made of non-empty '/'-free pieces. -/
theorem chain_joined (ss : List (List Nat)) :
    ∀ (s tl : List Nat), 47 ∉ s → (∀ x ∈ ss, GoodSeg x) → (tl = [] ∨ tl = [47]) →
      List.Chain' (fun a b : Nat => ¬ (a = 47 ∧ b = 47)) (s ++ joinSegs ss ++ tl) := by
  induction ss with
  | nil =>
    intro s tl hs _ htl
    rcases htl with e | e
    · subst e
      simpa [joinSegs] using chain_noslash s hs
    · subst e
      simp only [joinSegs, List.flatMap_nil, List.append_nil]
      rw [List.chain'_append]
      refine ⟨chain_noslash s hs, List.chain'_singleton _, ?_⟩
      intro x hx y _ e
      exact hs (e.1 ▸ List.mem_of_mem_getLast? hx)
  | cons s' ss' ih =>
    intro s tl hs hss htl
    have hs' : GoodSeg s' := hss s' (List.mem_cons_self _ _)
    have e1 : s ++ joinSegs (s' :: ss') ++ tl = s ++ ([47] ++ (s' ++ joinSegs ss' ++ tl)) := by
      simp [joinSegs_cons]
    have ih' := ih s' tl hs'.2.1 (fun x hx => hss x (List.mem_cons_of_mem _ hx)) htl
    rw [e1, List.chain'_append]
    refine ⟨chain_noslash s hs, ?_, ?_⟩
    · rw [List.chain'_append]
      refine ⟨List.chain'_singleton _, ih', ?_⟩
      intro x _ y hy e
      cases s' with
      | nil => exact hs'.1 rfl
      | cons d s'' =>
        have hd : y = d := by simpa using hy.symm
        exact hs'.2.1 (by simp [← hd, e.2])
    · intro x hx y _ e
      exact hs (e.1 ▸ List.mem_of_mem_getLast? hx)

/-- Every result of `cleanPath` as an empty piece followed by kept elements and, possibly, one
more empty piece. -/
theorem cleanPath_joined (p : GoString) :
    ∃ (segs : List (List Nat)) (tl : List Nat), (∀ s ∈ segs, GoodSeg s) ∧
      (tl = [] ∨ tl = [47]) ∧ cleanPath p = [] ++ joinSegs segs ++ tl := by
  obtain ⟨segs, hgood, h | ⟨hne, h⟩⟩ := cleanPath_form p
  · by_cases hs : segs = []
    · exact ⟨[], [47], by simp, Or.inr rfl, by rw [h, hs]; rfl⟩
    · exact ⟨segs, [], hgood, Or.inl rfl, by rw [h]; simp [render, hs]⟩
  · exact ⟨segs, [47], hgood, Or.inr rfl, by rw [h]; simp [render, hne]⟩

/-- C8: `cleanPath` is idempotent. -/
theorem cleanPath_idempotent (p : GoString) : cleanPath (cleanPath p) = cleanPath p := by
  obtain ⟨segs, hgood, h | ⟨hne, h⟩⟩ := cleanPath_form p
  · rw [h, cleanPath_render segs hgood]
  · rw [h, cleanPath_render_slash segs hgood hne]

/-- C9: `cleanPath` of the empty string is "/"; every result is non-empty and starts with '/';
a relative path gives what the same path with a leading '/' gives. -/
theorem cleanPath_absolute :
    cleanPath [] = [47] ∧
    (∀ p : GoString, cleanPath p ≠ [] ∧ (cleanPath p).head? = some 47) ∧
    (∀ p : GoString, p ≠ [] → p.head? ≠ some 47 → cleanPath p = cleanPath (47 :: p)) := by
  refine ⟨rfl, ?_, ?_⟩
  · intro p
    obtain ⟨segs, _, h | ⟨_, h⟩⟩ := cleanPath_form p
    · rw [h]
      exact ⟨render_ne_nil segs, render_head segs⟩
    · rw [h]
      refine ⟨by simp, ?_⟩
      rw [List.head?_append_of_ne_nil _ (render_ne_nil segs)]
      exact render_head segs
  · intro p hp hrel
    simp [cleanPath, hp, hrel]

theorem cleanPath_absolute_witness :
    cleanPath (str "a/../b/") = cleanPath (47 :: str "a/../b/") :=
  cleanPath_absolute.2.2 (str "a/../b/") (by decide) (by decide)

/-- C10: every result of `cleanPath` is in canonical form: none of its '/'-separated segments
is "." or "..", and it holds no two consecutive '/'. -/
theorem cleanPath_canonical (p : GoString) :
    (∀ seg ∈ (cleanPath p).splitOn 47, seg ≠ [46] ∧ seg ≠ [46, 46]) ∧
    ¬ ([47, 47] <:+: cleanPath p) := by
  obtain ⟨segs, tl, hgood, htl, h⟩ := cleanPath_joined p
  constructor
  · intro seg hseg
    rw [h, splitOn_joined segs [] tl (by simp) (fun x hx => (hgood x hx).2.1) htl] at hseg
    rcases List.mem_append.mp hseg with h1 | h1
    · rcases List.mem_cons.mp h1 with h2 | h2
      · subst h2
        simp
      · exact ⟨(hgood seg h2).2.2.1, (hgood seg h2).2.2.2⟩
    · have : seg = [] := by
        by_cases e : tl = []
        · simp [e] at h1
        · simpa [e] using h1
      subst this
      simp
  · intro hin
    have hch := chain_joined segs [] tl (by simp) hgood htl
    rw [← h] at hch
    have hpair := List.Chain'.infix hch hin
    exact List.chain'_pair.mp hpair ⟨rfl, rfl⟩

/-! ## Trailing slash -/

/-- The last step of `cleanPath` on a non-empty path: the cleaned rooted path, and the '/' put
back when the input ended with one. -/
theorem cleanPath_form_last (p : GoString) (hp : p ≠ []) :
    ∃ segs, (∀ s ∈ segs, GoodSeg s) ∧
      cleanPath p =
        if p.getLast? = some 47 ∧ render segs ≠ [47] then render segs ++ [47] else render segs := by
  have hq : ∃ q, (if p.head? ≠ some 47 then 47 :: p else p) = 47 :: q ∧
      (47 :: q).getLast? = p.getLast? := by
    by_cases h : p.head? = some 47
    · cases p with
      | nil => exact absurd rfl hp
      | cons c t =>
        have hc : c = 47 := by simpa using h
        exact ⟨t, by simp [hc], by rw [hc]⟩
    · refine ⟨p, by simp [h], ?_⟩
      cases p with
      | nil => exact absurd rfl hp
      | cons c t => simp [List.getLast?_cons_cons]
  obtain ⟨q, hq, hlast⟩ := hq
  obtain ⟨segs, hgood, hclean⟩ := Clean_rooted q
  refine ⟨segs, hgood, ?_⟩
  simp only [cleanPath, hp, if_false]
  rw [hq, hclean, hlast]

/-- C11: on a non-empty path the result of `cleanPath` ends with '/' exactly when the path ends
with '/' or the result is "/". -/
theorem cleanPath_trailing_slash (p : GoString) (hp : p ≠ []) :
    (cleanPath p).getLast? = some 47 ↔ (p.getLast? = some 47 ∨ cleanPath p = [47]) := by
  obtain ⟨segs, hgood, h⟩ := cleanPath_form_last p hp
  by_cases hc : p.getLast? = some 47 ∧ render segs ≠ [47]
  · rw [if_pos hc] at h
    rw [h]
    constructor
    · intro _
      exact Or.inl hc.1
    · intro _
      simp
  · rw [if_neg hc] at h
    rw [h]
    by_cases hs : segs = []
    · subst hs
      constructor
      · intro _
        exact Or.inr rfl
      · intro _
        rfl
    · have hlast := render_getLast segs hgood hs
      have hne : render segs ≠ [47] := by
        intro e
        exact hs ((render_length_one segs hgood).mp (by rw [e]; rfl))
      constructor
      · intro e
        exact absurd e hlast
      · rintro (e | e)
        · exact absurd ⟨e, hne⟩ hc
        · exact absurd e hne

theorem cleanPath_trailing_slash_witness :
    (cleanPath (str "a/./b/")).getLast? = some 47 ↔
      ((str "a/./b/").getLast? = some 47 ∨ cleanPath (str "a/./b/") = [47]) :=
  cleanPath_trailing_slash (str "a/./b/") (by decide)

/-! ## Action resolution: what the result depends on -/

/-- C12: `makeAction` ignores every route parameter other than "id" and "action": two controllers
with the same method whose maps agree on "id" and on "action" (an absent key read as the empty
string) resolve to the same action name, for the same extras. -/
theorem makeAction_ignores_other_params (tbl : Nat → Nat) (r1 r2 : Controller)
    (extras : List GoString)
    (hmethod : r1.ctx.Req.Method = r2.ctx.Req.Method)
    (hid : r1.ctx.params.get (str "id") = r2.ctx.params.get (str "id"))
    (haction : r1.ctx.params.get (str "action") = r2.ctx.params.get (str "action")) :
    r1.makeAction tbl extras = r2.makeAction tbl extras := by
  rw [makeAction_flat, makeAction_flat, hmethod, hid, haction]

theorem makeAction_ignores_other_params_witness :
    Controller.makeAction latin1Upper
      { Root := [], Action := [],
        ctx := { Req := { Method := str "GET" },
                 params := [(str "id", str "42"), (str "format", str "json")] } }
      [str "GET42"] =
    Controller.makeAction latin1Upper
      { Root := str "user", Action := str "Index",
        ctx := { Req := { Method := str "GET" },
                 params := [(str "page", str "3"), (str "id", str "42"), (str "action", [])] } }
      [str "GET42"] :=
  makeAction_ignores_other_params latin1Upper _ _ [str "GET42"] (by decide) (by decide)
    (by decide)

/-- C16: with an empty "action" the result of `makeAction` is one of "Index", "Create", "Show",
"Update", "Destroy", "WrongAction", or an element of the extras. -/
theorem makeAction_declared (tbl : Nat → Nat) (r : Controller) (extras : List GoString)
    (hact : r.ctx.params.get (str "action") = []) :
    r.makeAction tbl extras ∈ [str "Index", str "Create", str "Show", str "Update",
        str "Destroy", str "WrongAction"] ∨
      r.makeAction tbl extras ∈ extras := by
  rw [makeAction_flat]
  split_ifs with h1 h2 h3 h4 h5 h6 h7
  · left; simp
  · left; simp
  · exact absurd hact h3
  · right; exact h4
  · left; simp
  · left; simp
  · left; simp
  · left; simp

theorem makeAction_declared_witness :
    Controller.makeAction latin1Upper
      { Root := [], Action := [],
        ctx := { Req := { Method := str "GET" }, params := [(str "id", str "activate")] } }
      [str "GETActivate"] ∈ [str "Index", str "Create", str "Show", str "Update",
        str "Destroy", str "WrongAction"] ∨
    Controller.makeAction latin1Upper
      { Root := [], Action := [],
        ctx := { Req := { Method := str "GET" }, params := [(str "id", str "activate")] } }
      [str "GETActivate"] ∈ [str "GETActivate"] :=
  makeAction_declared latin1Upper
      { Root := [], Action := [],
        ctx := { Req := { Method := str "GET" }, params := [(str "id", str "activate")] } }
      [str "GETActivate"] (by decide)

/-- A string that starts with a recognised method is not "WrongAction". -/
theorem method_append_ne_wrong (m x : GoString)
    (hm : m = str "GET" ∨ m = str "POST" ∨ m = str "PUT" ∨ m = str "DELETE") :
    m ++ x ≠ str "WrongAction" := by
  have hw : (str "WrongAction").head? = some 87 := by decide
  intro e
  have hh : (m ++ x).head? = some 87 := by rw [e]; exact hw
  rcases hm with h | h | h | h <;> subst h
  · have : (str "GET" ++ x).head? = some 71 := by
      rw [List.head?_append_of_ne_nil _ (by decide)]; decide
    rw [this] at hh
    exact absurd hh (by decide)
  · have : (str "POST" ++ x).head? = some 80 := by
      rw [List.head?_append_of_ne_nil _ (by decide)]; decide
    rw [this] at hh
    exact absurd hh (by decide)
  · have : (str "PUT" ++ x).head? = some 80 := by
      rw [List.head?_append_of_ne_nil _ (by decide)]; decide
    rw [this] at hh
    exact absurd hh (by decide)
  · have : (str "DELETE" ++ x).head? = some 68 := by
      rw [List.head?_append_of_ne_nil _ (by decide)]; decide
    rw [this] at hh
    exact absurd hh (by decide)

/-- C17: for the methods "GET", "POST", "PUT" and "DELETE" the result of `makeAction` is never
"WrongAction". -/
theorem makeAction_recognised (tbl : Nat → Nat) (r : Controller) (extras : List GoString)
    (hm : r.ctx.Req.Method = str "GET" ∨ r.ctx.Req.Method = str "POST" ∨
      r.ctx.Req.Method = str "PUT" ∨ r.ctx.Req.Method = str "DELETE") :
    r.makeAction tbl extras ≠ str "WrongAction" := by
  rw [makeAction_flat]
  split_ifs with h1 h2 h3 h4 h5 h6 h7
  · decide
  · decide
  · exact method_append_ne_wrong _ _ hm
  · exact method_append_ne_wrong _ _ hm
  · decide
  · decide
  · decide
  · rcases hm with h | h | h | h
    · exact absurd h h5
    · exact absurd (Or.inl h) h6
    · exact absurd (Or.inr h) h6
    · exact absurd h h7

theorem makeAction_recognised_witness :
    Controller.makeAction latin1Upper
      { Root := [], Action := [],
        ctx := { Req := { Method := str "DELETE" }, params := [(str "id", str "wrongAction")] } }
      [str "WrongAction"] ≠ str "WrongAction" :=
  makeAction_recognised latin1Upper
      { Root := [], Action := [],
        ctx := { Req := { Method := str "DELETE" }, params := [(str "id", str "wrongAction")] } }
      [str "WrongAction"] (by decide)

/-- C18: with "id" and "action" both empty and a method other than "GET" and "POST", the rule 3
candidate is the bare method: when the extras hold the method itself, `makeAction` returns it. -/
theorem makeAction_bare_method (tbl : Nat → Nat) (r : Controller) (extras : List GoString)
    (hget : r.ctx.Req.Method ≠ str "GET") (hpost : r.ctx.Req.Method ≠ str "POST")
    (hid : r.ctx.params.get (str "id") = [])
    (hact : r.ctx.params.get (str "action") = [])
    (hmem : r.ctx.Req.Method ∈ extras) :
    r.makeAction tbl extras = r.ctx.Req.Method := by
  have hcap : capitalize tbl [] = [] := rfl
  rw [makeAction_flat, hid, hact, hcap, List.append_nil]
  simp [hget, hpost, hmem]

theorem makeAction_bare_method_witness :
    Controller.makeAction latin1Upper
      { Root := [], Action := [],
        ctx := { Req := { Method := str "PUT" }, params := [] } }
      [str "PUT"] = str "PUT" :=
  makeAction_bare_method latin1Upper
      { Root := [], Action := [],
        ctx := { Req := { Method := str "PUT" }, params := [] } }
      [str "PUT"] (by decide) (by decide) (by decide) (by decide) (by decide)

/-! ## The controller as state -/

/-- C13: the action name `makeAction` returns is a function of the method, the route parameters
and the extras alone (equal inputs, equal action name, whatever the other fields hold), and a
call leaves the method, the route parameters, `Root` and `Action` of the controller as they
were. -/
theorem makeActionCall_pure (tbl : Nat → Nat) :
    (∀ (r1 r2 : Controller) (e1 e2 : List GoString),
      r1.ctx.Req.Method = r2.ctx.Req.Method → r1.ctx.params = r2.ctx.params → e1 = e2 →
      (r1.makeActionCall tbl e1).1 = (r2.makeActionCall tbl e2).1) ∧
    (∀ (r : Controller) (extras : List GoString),
      (r.makeActionCall tbl extras).2.ctx.Req.Method = r.ctx.Req.Method ∧
      (r.makeActionCall tbl extras).2.ctx.params = r.ctx.params ∧
      (r.makeActionCall tbl extras).2.Root = r.Root ∧
      (r.makeActionCall tbl extras).2.Action = r.Action) := by
  constructor
  · intro r1 r2 e1 e2 hm hp he
    subst he
    show r1.makeAction tbl e1 = r2.makeAction tbl e1
    rw [makeAction_flat, makeAction_flat, hm, hp]
  · intro r extras
    exact ⟨rfl, rfl, rfl, rfl⟩

theorem makeActionCall_pure_witness :
    (Controller.makeActionCall latin1Upper
      { Root := str "user", Action := str "Show",
        ctx := { W := [SinkCall.writeHeader 200], Req := { Method := str "DELETE" },
                 params := [(str "id", str "7")] } } []).1 =
    (Controller.makeActionCall latin1Upper
      { Root := [], Action := [],
        ctx := { Req := { Method := str "DELETE" }, params := [(str "id", str "7")] } } []).1 :=
  (makeActionCall_pure latin1Upper).1 _ _ [] [] (by decide) (by decide) rfl

/-- C15: after `init` the action `CurrentAction` returns is the one `makeAction` yields for the
method of the request, the route parameters and the extras given to `init`, and `Root` is the
root given to `init`; `CurrentAction` leaves the controller as it was. -/
theorem init_currentAction (tbl : Nat → Nat) (r0 : Controller) (w : ResponseWriter)
    (req : Request) (root : GoString) (params : Params) (extras : List GoString) :
    (∀ r : Controller, r.ctx.Req.Method = req.Method → r.ctx.params = params →
      (r0.init tbl w req root params extras).CurrentAction.1 = r.makeAction tbl extras) ∧
    (r0.init tbl w req root params extras).Root = root ∧
    (r0.init tbl w req root params extras).CurrentAction.2 =
      r0.init tbl w req root params extras := by
  refine ⟨?_, rfl, rfl⟩
  intro r hm hp
  show Controller.makeAction tbl _ extras = r.makeAction tbl extras
  rw [makeAction_flat, makeAction_flat, hm, hp]
  rfl

theorem init_currentAction_witness :
    (Controller.init latin1Upper
      { Root := str "old", Action := str "Index",
        ctx := { Req := { Method := str "GET" }, params := [] } }
      [] { Method := str "PUT" } (str "user") [(str "id", str "42")] []).CurrentAction.1 =
    Controller.makeAction latin1Upper
      { Root := [], Action := [],
        ctx := { Req := { Method := str "PUT" }, params := [(str "id", str "42")] } } [] :=
  (init_currentAction latin1Upper
      { Root := str "old", Action := str "Index",
        ctx := { Req := { Method := str "GET" }, params := [] } }
      [] { Method := str "PUT" } (str "user") [(str "id", str "42")] []).1
    { Root := [], Action := [],
      ctx := { Req := { Method := str "PUT" }, params := [(str "id", str "42")] } }
    (by decide) (by decide)

/-! ## JSON rendering -/

theorem htmlSafe_lt (b : Nat) (h : htmlSafe b = true) : b < 0x80 := by
  simp only [htmlSafe, Bool.and_eq_true, decide_eq_true_eq] at h
  exact h.1.1.1.1.1.2

/-- A string of safe ASCII bytes is copied as it stands. -/
theorem appendStringLoop_safe (m : GoString) :
    ∀ fuel : Nat, m.length ≤ fuel → (∀ b ∈ m, htmlSafe b = true) →
      appendStringLoop fuel m = m := by
  induction m with
  | nil =>
    intro fuel _ _
    cases fuel <;> rfl
  | cons b t ih =>
    intro fuel hfuel hsafe
    cases fuel with
    | zero => simp at hfuel
    | succ f =>
      have hb := hsafe b (List.mem_cons_self _ _)
      have hlt := htmlSafe_lt b hb
      simp only [appendStringLoop]
      rw [if_pos hlt, if_pos hb,
        ih f (by simpa using hfuel) (fun x hx => hsafe x (List.mem_cons_of_mem _ hx))]
      rfl

theorem appendString_safe (m : GoString) (h : ∀ b ∈ m, htmlSafe b = true) :
    appendString m = [34] ++ m ++ [34] := by
  unfold appendString
  rw [appendStringLoop_safe m m.length (le_refl _) h]

/-- The calls `RenderJSONError` makes on the sink when `WriteHeader` accepts the code. -/
theorem RenderJSONError_calls (quote : GoString → GoString)
    (hquote : ∀ s : GoString, (∀ b ∈ s, htmlSafe b = true) → quote s = [34] ++ s ++ [34])
    (w : ResponseWriter) (code : Int) (m : GoString) (hlo : 100 ≤ code) (hhi : code ≤ 999) :
    RenderJSONError quote w code m =
      .ok (w ++ [SinkCall.setHeader (str "Content-Type") (str "application/json; charset=utf-8"),
            SinkCall.writeHeader code,
            SinkCall.write (str "\x7b\"errors\":\x7b\"message\":[" ++ quote m ++
              str "]\x7d\x7d" ++ [10])]) := by
  have h1 : quote (str "errors") = str "\"errors\"" := by
    rw [hquote _ (by decide)]
    decide
  have h2 : quote (str "message") = str "\"message\"" := by
    rw [hquote _ (by decide)]
    decide
  have h3 : str "\x7b\"errors\":\x7b\"message\":[" =
      [123] ++ str "\"errors\"" ++ [58] ++ ([123] ++ str "\"message\"" ++ [58] ++ [91]) := by
    decide
  have h4 : str "]\x7d\x7d" = [93, 125, 125] := by decide
  have hcode : ¬ (code < 100 ∨ code > 999) := by omega
  simp only [RenderJSONError, RenderJSON, WriteHeader, if_neg hcode, Encode, JValue.encode,
    JFields.encodeFields, List.insertionSort, List.orderedInsert, List.map, List.intercalate,
    List.intersperse, List.flatten, h1, h2, h3, h4]
  simp

/-- The outcome of `RenderJSONError` when `WriteHeader` refuses the code: the header has been
set, the call panics, nothing is written. -/
theorem RenderJSONError_panic (quote : GoString → GoString) (w : ResponseWriter) (code : Int)
    (m : GoString) (hcode : code < 100 ∨ 999 < code) :
    RenderJSONError quote w code m =
      .error (w ++ [SinkCall.setHeader (str "Content-Type")
        (str "application/json; charset=utf-8")]) := by
  have hcode' : code < 100 ∨ code > 999 := hcode
  simp only [RenderJSONError, RenderJSON, WriteHeader, if_pos hcode']

/-- C14, at the input of its example and at a code `WriteHeader` refuses: for code 422 and the
message "bad input" the body written is not the bare envelope (`Encode` ends it with a
newline), and for code 0 the call panics in `WriteHeader`: no status and no body reach the
sink. -/
theorem RenderJSONError_not_as_claimed :
    bodyWritten (sinkAfter (RenderJSONError appendString [] 422 (str "bad input"))) ≠
      str "\x7b\"errors\":\x7b\"message\":[\"bad input\"]\x7d\x7d" ∧
    statusWritten (sinkAfter (RenderJSONError appendString [] 0 (str "bad input"))) = [] ∧
    bodyWritten (sinkAfter (RenderJSONError appendString [] 0 (str "bad input"))) = [] := by
  decide

/-- C14, amended: `RenderJSONError w code m` is `RenderJSON w code v` for the envelope `v` with
the single key "errors" over the single key "message" over the array of `m`.  For a code from
100 to 999 the sink receives the Content-Type header "application/json; charset=utf-8", the
status `code` and one body: the envelope with `m` as a JSON string literal, followed by a
newline; for a message of ASCII text free of control characters, the double quote, the
backslash and the characters &, < and >, the literal is the message between double quotes, so
that for code 422 and "bad input" the body is the envelope of the example followed by a newline.
For any other code `WriteHeader` panics once the header is set, and no status and no body reach
the sink.  The routine of `encoding/json` for string literals is `quote`; all that is assumed of
it is that it writes such plain text between double quotes. -/
theorem RenderJSONError_effect (quote : GoString → GoString)
    (hquote : ∀ s : GoString, (∀ b ∈ s, htmlSafe b = true) → quote s = [34] ++ s ++ [34])
    (w : ResponseWriter) (code : Int) (m : GoString) :
    RenderJSONError quote w code m =
      RenderJSON quote w code
        (JFields.cons (str "errors")
          (JValue.object (JFields.cons (str "message") (JValue.strings [m]) JFields.nil))
          JFields.nil) ∧
    (100 ≤ code → code ≤ 999 →
      RenderJSONError quote w code m =
        .ok (w ++ [SinkCall.setHeader (str "Content-Type")
                (str "application/json; charset=utf-8"),
              SinkCall.writeHeader code,
              SinkCall.write (str "\x7b\"errors\":\x7b\"message\":[" ++ quote m ++
                str "]\x7d\x7d" ++ [10])]) ∧
      statusWritten (sinkAfter (RenderJSONError quote [] code m)) = [code] ∧
      headerSet (str "Content-Type") (sinkAfter (RenderJSONError quote [] code m)) =
        some (str "application/json; charset=utf-8") ∧
      bodyWritten (sinkAfter (RenderJSONError quote [] code m)) =
        str "\x7b\"errors\":\x7b\"message\":[" ++ quote m ++ str "]\x7d\x7d" ++ [10] ∧
      ((∀ b ∈ m, htmlSafe b = true) →
        bodyWritten (sinkAfter (RenderJSONError quote [] code m)) =
          str "\x7b\"errors\":\x7b\"message\":[\"" ++ m ++ str "\"]\x7d\x7d" ++ [10])) ∧
    bodyWritten (sinkAfter (RenderJSONError quote [] 422 (str "bad input"))) =
      str "\x7b\"errors\":\x7b\"message\":[\"bad input\"]\x7d\x7d" ++ [10] ∧
    (code < 100 ∨ 999 < code →
      RenderJSONError quote w code m =
        .error (w ++ [SinkCall.setHeader (str "Content-Type")
          (str "application/json; charset=utf-8")]) ∧
      statusWritten (sinkAfter (RenderJSONError quote [] code m)) = [] ∧
      bodyWritten (sinkAfter (RenderJSONError quote [] code m)) = []) := by
  have hbody : ∀ (c : Int) (x : GoString), 100 ≤ c → c ≤ 999 →
      bodyWritten (sinkAfter (RenderJSONError quote [] c x)) =
        str "\x7b\"errors\":\x7b\"message\":[" ++ quote x ++ str "]\x7d\x7d" ++ [10] := by
    intro c x hlo hhi
    rw [RenderJSONError_calls quote hquote [] c x hlo hhi]
    simp [sinkAfter, bodyWritten]
  have hplain : ∀ (c : Int) (x : GoString), 100 ≤ c → c ≤ 999 →
      (∀ b ∈ x, htmlSafe b = true) →
      bodyWritten (sinkAfter (RenderJSONError quote [] c x)) =
        str "\x7b\"errors\":\x7b\"message\":[\"" ++ x ++ str "\"]\x7d\x7d" ++ [10] := by
    intro c x hlo hhi hsafe
    have h1 : str "\x7b\"errors\":\x7b\"message\":[\"" =
        str "\x7b\"errors\":\x7b\"message\":[" ++ [34] := by decide
    have h2 : str "\"]\x7d\x7d" = [34] ++ str "]\x7d\x7d" := by decide
    rw [hbody c x hlo hhi, hquote x hsafe, h1, h2]
    simp
  refine ⟨rfl, ?_, ?_, ?_⟩
  · intro hlo hhi
    refine ⟨RenderJSONError_calls quote hquote w code m hlo hhi, ?_, ?_,
      hbody code m hlo hhi, hplain code m hlo hhi⟩
    · rw [RenderJSONError_calls quote hquote [] code m hlo hhi]
      simp [sinkAfter, statusWritten]
    · rw [RenderJSONError_calls quote hquote [] code m hlo hhi]
      simp [sinkAfter, headerSet]
  · have h := hplain 422 (str "bad input") (by decide) (by decide) (by decide)
    rw [h]
    decide
  · intro hcode
    refine ⟨RenderJSONError_panic quote w code m hcode, ?_, ?_⟩
    · rw [RenderJSONError_panic quote [] code m hcode]
      simp [sinkAfter, statusWritten]
    · rw [RenderJSONError_panic quote [] code m hcode]
      simp [sinkAfter, bodyWritten]

theorem RenderJSONError_effect_witness :
    bodyWritten (sinkAfter (RenderJSONError appendString [] 500 (str "not found"))) =
      str "\x7b\"errors\":\x7b\"message\":[\"" ++ str "not found" ++ str "\"]\x7d\x7d" ++ [10] :=
  ((RenderJSONError_effect appendString appendString_safe [] 500 (str "not found")).2.1
    (by decide) (by decide)).2.2.2.2 (by decide)

end Flash
